import Mathlib

set_option maxHeartbeats 1000000
set_option maxRecDepth 4000

/-!  Verification of the array-backed range-sum segment tree of this
repository (`src/lib.rs`, together with the duplicated copy of the same
structure in `src/main.rs`).

Modelling conventions, used consistently below:

* `isize` values are modelled as `Int` with the two's-complement reduction
  `wrap` applied at every arithmetic step, matching the wrapping overflow
  semantics of a release build (a debug build traps exactly where `wrap`
  departs from exact arithmetic, so a disagreement between the wrapped
  result and the exact sum means the release build returns a wrong value
  and the debug build aborts).
* `usize` is modelled as `Nat`, with an explicit `% 2^64` at the two
  operations of `get_segment_tree_size` that can overflow.
* A Rust abort (out-of-bounds indexing, `Option::unwrap` on `None`) is
  modelled by `Option`: `none` is an abort; no claim counts it as a
  returned value.
* Rust's recursion and the `while` loop of `update_ancestors` are realised
  with an explicit structural fuel parameter (so that all definitions are
  kernel-computable); each public entry point passes a fuel that the
  correctness lemmas prove sufficient on every tree the code can build,
  and fuel exhaustion is `none` (an abort) as well.
-/

/-- `isize::MAX / 2` (`MAX_VALUE` in the source): `2^62 - 1`. -/
def MAX_VALUE : Int := 4611686018427387903

/-- `isize::MIN / 2` (`MIN_VALUE` in the source): `-2^62`. -/
def MIN_VALUE : Int := -4611686018427387904

/-- `usize::MAX / 2 - 1` (`MAX_INPUT_SIZE` in the source): `2^63 - 2`. -/
def MAX_INPUT_SIZE : Nat := 9223372036854775806

/-- Two's-complement reduction of an integer into the `isize` (`i64`)
range `[-2^63, 2^63)`; release-profile Rust arithmetic on `isize` is exact
arithmetic followed by this reduction. -/
def wrap (x : Int) : Int :=
  (x + 9223372036854775808) % 18446744073709551616 - 9223372036854775808

/-- `isize` addition (release semantics): exact addition then `wrap`. -/
def wadd (a b : Int) : Int := wrap (a + b)

/-- Exact sum of `f s, f (s+1), ..., f e` (`0` when `e < s`). -/
def rangeSum (f : Nat → Int) (s e : Nat) : Int :=
  ((List.range (e + 1 - s)).map fun k => f (s + k)).sum

/-- Parent slot in the implicit heap layout: `(k - 1) / 2`. -/
def par (k : Nat) : Nat := (k - 1) / 2

/-- Fueled ancestor chain of an arena index: `k, par k, ..., 0`. -/
def ancChainF : Nat → Nat → List Nat
  | 0, _ => []
  | fuel + 1, k => if k = 0 then [0] else k :: ancChainF fuel (par k)

/-- Ancestor chain of arena index `k` (self included, root `0` last). -/
def ancChain (k : Nat) : List Nat := ancChainF (k + 1) k

/-- Fueled floor of `log2` (fuel `64` is enough for any `usize`). -/
def log2F : Nat → Nat → Nat
  | 0, _ => 0
  | fuel + 1, n => if n ≤ 1 then 0 else log2F fuel (n / 2) + 1

/-- Floor of `log2` for numbers below `2^64`. -/
def nlog2 (n : Nat) : Nat := log2F 64 n

/-- Ceiling of `log2` (`0` for `0` and `1`). -/
def clog2f (m : Nat) : Nat := if m ≤ 1 then 0 else nlog2 (m - 1) + 1

/-- Value of the Rust cast `n as f64`, as an exact natural number: round
`n` to 53 significant bits, nearest, ties to even.  This is exact IEEE-754
semantics of the `usize → f64` cast; every `n < 2^53` is unchanged. -/
def f64ofNat (n : Nat) : Nat :=
  if n < 9007199254740992 then n
  else
    let k := nlog2 n - 52
    let q := n / 2 ^ k
    let r := n % 2 ^ k
    if 2 * r < 2 ^ k then q * 2 ^ k
    else if 2 ^ k < 2 * r then (q + 1) * 2 ^ k
    else if q % 2 = 0 then q * 2 ^ k else (q + 1) * 2 ^ k

/-- The sizing function of the specification: the smallest power of two
that is at least `n` (for `n ≥ 1`). -/
def nextPowTwo (n : Nat) : Nat := 2 ^ clog2f n

/-- One node of the segment tree.  The source field `end` is a Lean
keyword and is called `stop` here. -/
structure Node where
  value : Int
  start : Nat
  stop : Nat
  left : Option Nat
  right : Option Nat
deriving DecidableEq, Repr

/-- The all-zero node `reserve_nodes` fills the arena with. -/
def dfltNode : Node :=
  { value := 0, start := 0, stop := 0, left := none, right := none }

/-- The segment tree: arena of nodes, leaf count, and the map from
original sequence position to the arena index of that leaf. -/
structure SegmentTree where
  nodes : List Node
  leaf_len : Nat
  leaf_indices : List Nat
deriving DecidableEq, Repr

/-- Total read of an arena slot (reads are only performed at indices the
code has bounds-checked, or inside `Option`-checked wrappers). -/
def getN (nodes : List Node) (i : Nat) : Node := nodes.getD i dfltNode

/-- Checked write `nodes[i] = g (nodes[i])`; `none` models the
out-of-bounds abort of `Vec` indexing.  Consecutive field assignments to
the same slot in the source are merged into one `g`. -/
def modifyNode (nodes : List Node) (i : Nat) (g : Node → Node) :
    Option (List Node) :=
  if i < nodes.length then some (nodes.set i (g (getN nodes i))) else none

/-- Checked write `leaf_indices[p] = v`. -/
def setLeafIdx (li : List Nat) (p v : Nat) : Option (List Nat) :=
  if p < li.length then some (li.set p v) else none

/-- Element loop of `validate_input` (`for i in 0..input.len()`), with the
two error messages exactly as (mis)written in the source. -/
def validate_elems : List Int → Except String Unit
  | [] => Except.ok ()
  | x :: xs =>
    if x < MIN_VALUE then Except.error "Input value exceeded maximum value"
    else if MAX_VALUE < x then Except.error "Input value exceeded minimum value"
    else validate_elems xs

/-- `SegmentTree::validate_input` of `src/lib.rs`. -/
def SegmentTree.validate_input (input : List Int) : Except String Unit :=
  if input.length = 0 then Except.error "Input is empty"
  else if MAX_INPUT_SIZE < input.length then
    Except.error "Input size exceeded maximum value"
  else validate_elems input

/-- `SegmentTree::get_segment_tree_size` of `src/lib.rs`.  The source
computes the height as `(vec_len as f64).log2().ceil()`: the cast is
`f64ofNat` (exact IEEE semantics) and `.log2().ceil()` is modelled as the
exact `⌈log₂⌉` of the cast value, which any faithfully rounded `log2`
realises whenever the cast value is an exact power of two (as it is at
every input the theorems below evaluate this function on).  The final
`2 * next_pow2 - 1` is `usize` arithmetic and is reduced `% 2^64`. -/
def SegmentTree.get_segment_tree_size (vec_len : Nat) : Nat :=
  if vec_len = 0 then 0
  else
    let height := clog2f (f64ofNat vec_len)
    let next_pow2 := 2 ^ height % 18446744073709551616
    (2 * next_pow2 % 18446744073709551616 + 18446744073709551615) %
      18446744073709551616

/-- `SegmentTree::reserve_nodes` of `src/lib.rs`. -/
def SegmentTree.reserve_nodes (tree_size : Nat) : List Node :=
  List.replicate tree_size dfltNode

/-- `SegmentTree::build_nodes_recursive` of `src/lib.rs` (fueled). -/
def SegmentTree.build_nodes_recursive (fuel : Nat) (nodes : List Node)
    (leaf_indices : List Nat) (node start stop : Nat) (input : List Int) :
    Option (List Node × List Nat × Int) :=
  match fuel with
  | 0 => none
  | fuel + 1 =>
    if start = stop then
      match input.get? start with
      | none => none
      | some v =>
        match modifyNode nodes node
            (fun nd => { nd with value := v, start := start, stop := stop }) with
        | none => none
        | some nodes =>
          match setLeafIdx leaf_indices start node with
          | none => none
          | some leaf_indices => some (nodes, leaf_indices, v)
    else
      let mid := (start + stop) / 2
      let left := 2 * node + 1
      let right := 2 * node + 2
      match modifyNode nodes node
          (fun nd => { nd with left := some left, right := some right,
                               start := start, stop := stop }) with
      | none => none
      | some nodes =>
        match SegmentTree.build_nodes_recursive fuel nodes leaf_indices
            left start mid input with
        | none => none
        | some (nodes, leaf_indices, left_sum) =>
          match SegmentTree.build_nodes_recursive fuel nodes leaf_indices
              right (mid + 1) stop input with
          | none => none
          | some (nodes, leaf_indices, right_sum) =>
            let v := wadd left_sum right_sum
            match modifyNode nodes node (fun nd => { nd with value := v }) with
            | none => none
            | some nodes => some (nodes, leaf_indices, v)

/-- `SegmentTree::new` of `src/lib.rs`; the build recursion gets fuel
`leaf_len`, which bounds its depth (the covered range shrinks by at least
one on every recursive call). -/
def SegmentTree.new (input : List Int) : Option (Except String SegmentTree) :=
  match SegmentTree.validate_input input with
  | Except.error e => some (Except.error e)
  | Except.ok _ =>
    let leaf_len := input.length
    let tree_len := SegmentTree.get_segment_tree_size leaf_len
    let nodes := SegmentTree.reserve_nodes tree_len
    let leaf_indices := List.replicate leaf_len 0
    match SegmentTree.build_nodes_recursive leaf_len nodes leaf_indices
        0 0 (leaf_len - 1) input with
    | none => none
    | some (nodes, leaf_indices, _) =>
      some (Except.ok { nodes := nodes, leaf_len := leaf_len,
                        leaf_indices := leaf_indices })

/-- `SegmentTree::validate_public_query` of `src/lib.rs`. -/
def SegmentTree.validate_public_query (t : SegmentTree) (start stop : Nat) :
    Except String Unit :=
  if t.leaf_len = 0 then Except.error "Segment tree is empty"
  else if stop < start then Except.error "Start index is greater than end index"
  else if t.leaf_len - 1 < start then Except.error "Start index is out of bounds"
  else if t.leaf_len - 1 < stop then Except.error "End index is out of bounds"
  else Except.ok ()

/-- `SegmentTree::internal_query_recursive` of `src/lib.rs` (fueled). -/
def SegmentTree.internal_query_recursive (t : SegmentTree) (fuel : Nat)
    (node_idx start stop : Nat) : Option Int :=
  match fuel with
  | 0 => none
  | fuel + 1 =>
    match t.nodes.get? node_idx with
    | none => none
    | some nd =>
      if start ≤ nd.start ∧ nd.stop ≤ stop then some nd.value
      else if stop < nd.start ∨ nd.stop < start then some 0
      else
        match nd.left, nd.right with
        | some l, some r =>
          match t.internal_query_recursive fuel l start stop,
                t.internal_query_recursive fuel r start stop with
          | some left_sum, some right_sum => some (wadd left_sum right_sum)
          | _, _ => none
        | _, _ => none

/-- `SegmentTree::query` of `src/lib.rs`; the recursion gets fuel
`leaf_len`, which bounds its depth on every tree `new` can build. -/
def SegmentTree.query (t : SegmentTree) (start stop : Nat) :
    Option (Except String Int) :=
  match t.validate_public_query start stop with
  | Except.error e => some (Except.error e)
  | Except.ok _ =>
    match t.internal_query_recursive t.leaf_len 0 start stop with
    | none => none
    | some v => some (Except.ok v)

/-- `SegmentTree::validate_public_update` of `src/lib.rs`. -/
def SegmentTree.validate_public_update (t : SegmentTree) (index : Nat)
    (new_value : Int) : Except String Unit :=
  if t.leaf_len = 0 then Except.error "Segment tree is empty"
  else if t.leaf_len ≤ index then Except.error "Update index is out of bounds"
  else if MAX_VALUE < new_value ∨ new_value < MIN_VALUE then
    Except.error "New value is out of valid range"
  else Except.ok ()

/-- `SegmentTree::update_ancestors` of `src/lib.rs`: the upward `while`
loop, fueled (the index strictly decreases, so fuel `node_idx + 1` always
suffices; the wrapper `update` passes exactly that). -/
def SegmentTree.update_ancestors (fuel : Nat) (nodes : List Node)
    (node_idx : Nat) : Option (List Node) :=
  match fuel with
  | 0 => none
  | fuel + 1 =>
    if node_idx = 0 then some nodes
    else
      let parent := (node_idx - 1) / 2
      match nodes.get? parent with
      | none => none
      | some nd =>
        match nd.left, nd.right with
        | some left_child, some right_child =>
          match nodes.get? left_child, nodes.get? right_child with
          | some lnd, some rnd =>
            match modifyNode nodes parent
                (fun nd => { nd with value := wadd lnd.value rnd.value }) with
            | none => none
            | some nodes => SegmentTree.update_ancestors fuel nodes parent
          | _, _ => none
        | _, _ => none

/-- `SegmentTree::update` of `src/lib.rs`.  On a validation error the
source returns before touching any state, so the model returns the
unchanged tree together with the error. -/
def SegmentTree.update (t : SegmentTree) (index : Nat) (new_value : Int) :
    Option (SegmentTree × Except String Unit) :=
  match t.validate_public_update index new_value with
  | Except.error e => some (t, Except.error e)
  | Except.ok _ =>
    match t.leaf_indices.get? index with
    | none => none
    | some leaf_node =>
      match modifyNode t.nodes leaf_node
          (fun nd => { nd with value := new_value }) with
      | none => none
      | some nodes =>
        match SegmentTree.update_ancestors (leaf_node + 1) nodes leaf_node with
        | none => none
        | some nodes => some ({ t with nodes := nodes }, Except.ok ())

/-- Fueled list of the arena slots visited by `build_nodes_recursive`
started at `(node, start, stop)`, in visiting order. -/
def buildVisitedF : Nat → Nat → Nat → Nat → List Nat
  | 0, _, _, _ => []
  | fuel + 1, node, start, stop =>
    if start = stop then [node]
    else
      let mid := (start + stop) / 2
      node :: (buildVisitedF fuel (2 * node + 1) start mid ++
               buildVisitedF fuel (2 * node + 2) (mid + 1) stop)

/-- Arena slots visited by the build recursion from `(node, start, stop)`. -/
def buildVisited (node start stop : Nat) : List Nat :=
  buildVisitedF (stop + 1 - start) node start stop

/-!  The second copy of the structure, from `src/main.rs`.  Its `struct
Node` and `struct SegmentTree` declarations are field-for-field identical
to the library's, so the Lean structure types are shared; every function
is duplicated below exactly as it appears in `src/main.rs` (where the
build helper is named `build_nodes`). -/

namespace MainSrc

/-- Element loop of `validate_input` in `src/main.rs`. -/
def validate_elems : List Int → Except String Unit
  | [] => Except.ok ()
  | x :: xs =>
    if x < MIN_VALUE then Except.error "Input value exceeded maximum value"
    else if MAX_VALUE < x then Except.error "Input value exceeded minimum value"
    else validate_elems xs

/-- `SegmentTree::validate_input` of `src/main.rs`. -/
def validate_input (input : List Int) : Except String Unit :=
  if input.length = 0 then Except.error "Input is empty"
  else if MAX_INPUT_SIZE < input.length then
    Except.error "Input size exceeded maximum value"
  else MainSrc.validate_elems input

/-- `SegmentTree::get_segment_tree_size` of `src/main.rs`. -/
def get_segment_tree_size (vec_len : Nat) : Nat :=
  if vec_len = 0 then 0
  else
    let height := clog2f (f64ofNat vec_len)
    let next_pow2 := 2 ^ height % 18446744073709551616
    (2 * next_pow2 % 18446744073709551616 + 18446744073709551615) %
      18446744073709551616

/-- `SegmentTree::reserve_nodes` of `src/main.rs`. -/
def reserve_nodes (tree_size : Nat) : List Node :=
  List.replicate tree_size dfltNode

/-- `SegmentTree::build_nodes` of `src/main.rs` (fueled). -/
def build_nodes (fuel : Nat) (nodes : List Node)
    (leaf_indices : List Nat) (node start stop : Nat) (input : List Int) :
    Option (List Node × List Nat × Int) :=
  match fuel with
  | 0 => none
  | fuel + 1 =>
    if start = stop then
      match input.get? start with
      | none => none
      | some v =>
        match modifyNode nodes node
            (fun nd => { nd with value := v, start := start, stop := stop }) with
        | none => none
        | some nodes =>
          match setLeafIdx leaf_indices start node with
          | none => none
          | some leaf_indices => some (nodes, leaf_indices, v)
    else
      let mid := (start + stop) / 2
      let left := 2 * node + 1
      let right := 2 * node + 2
      match modifyNode nodes node
          (fun nd => { nd with left := some left, right := some right,
                               start := start, stop := stop }) with
      | none => none
      | some nodes =>
        match MainSrc.build_nodes fuel nodes leaf_indices left start mid input with
        | none => none
        | some (nodes, leaf_indices, left_sum) =>
          match MainSrc.build_nodes fuel nodes leaf_indices
              right (mid + 1) stop input with
          | none => none
          | some (nodes, leaf_indices, right_sum) =>
            let v := wadd left_sum right_sum
            match modifyNode nodes node (fun nd => { nd with value := v }) with
            | none => none
            | some nodes => some (nodes, leaf_indices, v)

/-- `SegmentTree::new` of `src/main.rs`. -/
def new (input : List Int) : Option (Except String SegmentTree) :=
  match MainSrc.validate_input input with
  | Except.error e => some (Except.error e)
  | Except.ok _ =>
    let leaf_len := input.length
    let tree_len := MainSrc.get_segment_tree_size leaf_len
    let nodes := MainSrc.reserve_nodes tree_len
    let leaf_indices := List.replicate leaf_len 0
    match MainSrc.build_nodes leaf_len nodes leaf_indices 0 0 (leaf_len - 1)
        input with
    | none => none
    | some (nodes, leaf_indices, _) =>
      some (Except.ok { nodes := nodes, leaf_len := leaf_len,
                        leaf_indices := leaf_indices })

/-- `SegmentTree::validate_public_query` of `src/main.rs`; its
lower-bound check is `start > self.leaf_len - 1`, the same as the
library copy's. -/
def validate_public_query (t : SegmentTree) (start stop : Nat) :
    Except String Unit :=
  if t.leaf_len = 0 then Except.error "Segment tree is empty"
  else if stop < start then Except.error "Start index is greater than end index"
  else if t.leaf_len - 1 < start then Except.error "Start index is out of bounds"
  else if t.leaf_len - 1 < stop then Except.error "End index is out of bounds"
  else Except.ok ()

/-- `SegmentTree::internal_query_recursive` of `src/main.rs` (fueled). -/
def internal_query_recursive (t : SegmentTree) (fuel : Nat)
    (node_idx start stop : Nat) : Option Int :=
  match fuel with
  | 0 => none
  | fuel + 1 =>
    match t.nodes.get? node_idx with
    | none => none
    | some nd =>
      if start ≤ nd.start ∧ nd.stop ≤ stop then some nd.value
      else if stop < nd.start ∨ nd.stop < start then some 0
      else
        match nd.left, nd.right with
        | some l, some r =>
          match MainSrc.internal_query_recursive t fuel l start stop,
                MainSrc.internal_query_recursive t fuel r start stop with
          | some left_sum, some right_sum => some (wadd left_sum right_sum)
          | _, _ => none
        | _, _ => none

/-- `SegmentTree::query` of `src/main.rs`. -/
def query (t : SegmentTree) (start stop : Nat) : Option (Except String Int) :=
  match MainSrc.validate_public_query t start stop with
  | Except.error e => some (Except.error e)
  | Except.ok _ =>
    match MainSrc.internal_query_recursive t t.leaf_len 0 start stop with
    | none => none
    | some v => some (Except.ok v)

/-- `SegmentTree::validate_public_update` of `src/main.rs`. -/
def validate_public_update (t : SegmentTree) (index : Nat)
    (new_value : Int) : Except String Unit :=
  if t.leaf_len = 0 then Except.error "Segment tree is empty"
  else if t.leaf_len ≤ index then Except.error "Update index is out of bounds"
  else if MAX_VALUE < new_value ∨ new_value < MIN_VALUE then
    Except.error "New value is out of valid range"
  else Except.ok ()

/-- `SegmentTree::update_ancestors` of `src/main.rs` (fueled). -/
def update_ancestors (fuel : Nat) (nodes : List Node) (node_idx : Nat) :
    Option (List Node) :=
  match fuel with
  | 0 => none
  | fuel + 1 =>
    if node_idx = 0 then some nodes
    else
      let parent := (node_idx - 1) / 2
      match nodes.get? parent with
      | none => none
      | some nd =>
        match nd.left, nd.right with
        | some left_child, some right_child =>
          match nodes.get? left_child, nodes.get? right_child with
          | some lnd, some rnd =>
            match modifyNode nodes parent
                (fun nd => { nd with value := wadd lnd.value rnd.value }) with
            | none => none
            | some nodes => MainSrc.update_ancestors fuel nodes parent
          | _, _ => none
        | _, _ => none

/-- `SegmentTree::update` of `src/main.rs`. -/
def update (t : SegmentTree) (index : Nat) (new_value : Int) :
    Option (SegmentTree × Except String Unit) :=
  match MainSrc.validate_public_update t index new_value with
  | Except.error e => some (t, Except.error e)
  | Except.ok _ =>
    match t.leaf_indices.get? index with
    | none => none
    | some leaf_node =>
      match modifyNode t.nodes leaf_node
          (fun nd => { nd with value := new_value }) with
      | none => none
      | some nodes =>
        match MainSrc.update_ancestors (leaf_node + 1) nodes leaf_node with
        | none => none
        | some nodes => some ({ t with nodes := nodes }, Except.ok ())

end MainSrc

/-!  Specification-side predicates used by the proofs. -/

/-- The triples `(arena index, start, stop)` of the recursion tree that
`build_nodes_recursive` generates when started at anchor
`(i0, s0, e0)`: the anchor itself, and for every internal triple the two
halves at heap slots `2i+1` and `2i+2`. -/
inductive TNL (i0 s0 e0 : Nat) : Nat → Nat → Nat → Prop where
  | root : TNL i0 s0 e0 i0 s0 e0
  | left {i s e : Nat} : TNL i0 s0 e0 i s e → s < e →
      TNL i0 s0 e0 (2 * i + 1) s ((s + e) / 2)
  | right {i s e : Nat} : TNL i0 s0 e0 i s e → s < e →
      TNL i0 s0 e0 (2 * i + 2) ((s + e) / 2 + 1) e

/-- What a correct arena says at one recursion-tree triple `(i, s, e)`:
bounds, interval fields, the (wrapped) interval sum as `value` — demanded
only where the node is not in the `bad` set of temporarily-stale slots —
and the child pointers (leaves also have their arena index recorded in
`leaf_indices`). -/
def nodeOK (nodes : List Node) (li : List Nat) (f : Nat → Int)
    (bad : Nat → Prop) (i s e : Nat) : Prop :=
  i < nodes.length ∧
  (getN nodes i).start = s ∧
  (getN nodes i).stop = e ∧
  (¬ bad i → (getN nodes i).value = wrap (rangeSum f s e)) ∧
  (s = e → (getN nodes i).left = none ∧ (getN nodes i).right = none ∧
    li.getD s 0 = i) ∧
  (s < e → (getN nodes i).left = some (2 * i + 1) ∧
    (getN nodes i).right = some (2 * i + 2))

/-- Arena well-formedness over the whole tree rooted at slot `0` covering
`[0, E]`, with a set `bad` of slots whose `value` may be stale. -/
def WFX (E : Nat) (nodes : List Node) (li : List Nat) (f : Nat → Int)
    (bad : Nat → Prop) : Prop :=
  ∀ i s e, TNL 0 0 E i s e → nodeOK nodes li f bad i s e

/-- Arena well-formedness with no stale slots. -/
def WF (E : Nat) (nodes : List Node) (li : List Nat) (f : Nat → Int) : Prop :=
  WFX E nodes li f (fun _ => False)

/-- The half-range bound that `validate_input` and
`validate_public_update` enforce on every stored leaf value. -/
def inHalfRange (x : Int) : Prop := MIN_VALUE ≤ x ∧ x ≤ MAX_VALUE

/-- Everything the proofs carry along a tree's lifetime: at least one
leaf, `leaf_indices` of length `leaf_len`, a well-formed arena for the
abstract sequence `f`, half-range bounds on `f`, and untouched default
padding outside the visited slots. -/
def Good (t : SegmentTree) (f : Nat → Int) : Prop :=
  1 ≤ t.leaf_len ∧
  t.leaf_indices.length = t.leaf_len ∧
  WF (t.leaf_len - 1) t.nodes t.leaf_indices f ∧
  (∀ k, k < t.leaf_len → inHalfRange (f k)) ∧
  (∀ j, j ∉ buildVisited 0 0 (t.leaf_len - 1) → getN t.nodes j = dfltNode)

/-- Pointwise update of the abstract sequence. -/
def updF (f : Nat → Int) (idx : Nat) (v : Int) : Nat → Int :=
  fun k => if k = idx then v else f k

/-- Tree states reachable through the public interface: freshly built by
`new`, or one successful `update` after a reachable state. -/
inductive Reach : SegmentTree → Prop where
  | base {s : List Int} {t : SegmentTree} :
      SegmentTree.new s = some (Except.ok t) → Reach t
  | step {t : SegmentTree} {i : Nat} {v : Int} {t' : SegmentTree} :
      Reach t → SegmentTree.update t i v = some (t', Except.ok ()) → Reach t'

/-!  Concrete values used by witnesses and counterexamples. -/

/-- The example sequence used throughout the repository's tests. -/
def ex8 : List Int := [1, 2, 3, 4, 5, 6, 7, 8]

/-- The tree `new` builds from a sequence (a junk empty tree if `new`
does not succeed; the uses below always prove it succeeds). -/
def newOk (s : List Int) : SegmentTree :=
  match SegmentTree.new s with
  | some (Except.ok t) => t
  | _ => { nodes := [], leaf_len := 0, leaf_indices := [] }

/-- The tree a successful `update` produces (junk fallback likewise). -/
def updOk (t : SegmentTree) (i : Nat) (v : Int) : SegmentTree :=
  match SegmentTree.update t i v with
  | some (t', _) => t'
  | none => t

/-- Accepted sequence whose range sum over `[1, 4]` is `2^63`, one past
`isize::MAX`: all elements are within the half-range bound and every
subtree sum fits in `isize`, yet that one query overflows. -/
def cexWrapQ : List Int :=
  [-4611686018427387904, 4611686018427387903, 4611686018427387903, 0,
   2, -4611686018427387904, 0, 0]

/-- `cexWrapQ` with position `4` zeroed: the base sequence from which
updating position `4` to `2` reproduces `cexWrapQ`. -/
def cexWrapQ0 : List Int :=
  [-4611686018427387904, 4611686018427387903, 4611686018427387903, 0,
   0, -4611686018427387904, 0, 0]

/-- Accepted sequence on which construction itself already wraps: the
root sum `4 * (2^62 - 1) = 2^64 - 4` reduces to `-4`. -/
def cexWrapB : List Int :=
  [4611686018427387903, 4611686018427387903, 4611686018427387903,
   4611686018427387903]

/-!  Basic lemmas: wrapping arithmetic, range sums, list accessors. -/

theorem wrap_add_left (a b : Int) : wrap (wrap a + b) = wrap (a + b) := by
  unfold wrap
  omega

theorem wrap_add_right (a b : Int) : wrap (a + wrap b) = wrap (a + b) := by
  unfold wrap
  omega

theorem wadd_wrap (a b : Int) : wadd (wrap a) (wrap b) = wrap (a + b) := by
  unfold wadd
  rw [wrap_add_left, wrap_add_right]

theorem wrap_eq_self {x : Int} (h1 : -9223372036854775808 ≤ x)
    (h2 : x ≤ 9223372036854775807) : wrap x = x := by
  unfold wrap
  omega

theorem wrap_zero : wrap 0 = 0 := by
  unfold wrap
  omega

theorem rangeSum_empty (f : Nat → Int) (s e : Nat) (h : e < s) :
    rangeSum f s e = 0 := by
  have h0 : e + 1 - s = 0 := by omega
  simp [rangeSum, h0]

theorem rangeSum_single (f : Nat → Int) (s : Nat) : rangeSum f s s = f s := by
  have h1 : s + 1 - s = 1 := by omega
  have h2 : List.range 1 = [0] := rfl
  simp [rangeSum, h1, h2]

theorem rangeSum_succ_stop (f : Nat → Int) {s e : Nat} (h : s ≤ e + 1) :
    rangeSum f s (e + 1) = rangeSum f s e + f (e + 1) := by
  unfold rangeSum
  have h2 : e + 1 + 1 - s = (e + 1 - s) + 1 := by omega
  have h3 : s + (e + 1 - s) = e + 1 := by omega
  rw [h2, List.range_succ]
  simp [h3]

theorem rangeSum_split (f : Nat → Int) {s m e : Nat} (h1 : s ≤ m)
    (h2 : m < e) : rangeSum f s e = rangeSum f s m + rangeSum f (m + 1) e := by
  induction e with
  | zero => omega
  | succ e ih =>
    rcases Nat.lt_or_ge m e with h3 | h3
    · have ih2 := ih h3
      rw [rangeSum_succ_stop f (by omega), ih2,
          rangeSum_succ_stop f (by omega)]
      ring
    · have hme : m = e := by omega
      subst hme
      rw [rangeSum_succ_stop f (by omega), rangeSum_single]

theorem rangeSum_congr {f g : Nat → Int} {s e : Nat}
    (h : ∀ k, s ≤ k → k ≤ e → f k = g k) : rangeSum f s e = rangeSum g s e := by
  unfold rangeSum
  congr 1
  apply List.map_congr_left
  intro k hk
  have hk2 := List.mem_range.mp hk
  exact h (s + k) (by omega) (by omega)

theorem getD_set_same {α : Type} {l : List α} {i : Nat} (v d : α)
    (h : i < l.length) : (l.set i v).getD i d = v := by
  induction l generalizing i with
  | nil => simp at h
  | cons a l ih =>
    cases i with
    | zero => simp [List.set, List.getD]
    | succ i =>
      simp only [List.set, List.getD_cons_succ]
      exact ih (by simpa using h)

theorem getD_set_other {α : Type} {l : List α} {i j : Nat} (v d : α)
    (h : i ≠ j) : (l.set i v).getD j d = l.getD j d := by
  induction l generalizing i j with
  | nil => simp [List.set]
  | cons a l ih =>
    cases i with
    | zero =>
      cases j with
      | zero => omega
      | succ j => simp [List.set]
    | succ i =>
      cases j with
      | zero => simp [List.set]
      | succ j =>
        simp only [List.set, List.getD_cons_succ]
        exact ih (by omega)

theorem getD_replicate {α : Type} {n i : Nat} (d : α) :
    (List.replicate n d).getD i d = d := by
  induction n generalizing i with
  | zero => simp [List.getD]
  | succ n ih =>
    cases i with
    | zero => simp [List.replicate]
    | succ i =>
      simp only [List.replicate, List.getD_cons_succ]
      exact ih

theorem get?_eq_getD {α : Type} {l : List α} {i : Nat} (d : α)
    (h : i < l.length) : l.get? i = some (l.getD i d) := by
  induction l generalizing i with
  | nil => simp at h
  | cons a l ih =>
    cases i with
    | zero => simp
    | succ i =>
      simp only [List.get?, List.getD_cons_succ]
      exact ih (by simpa using h)

theorem getN_set_same {nodes : List Node} {i : Nat} (v : Node)
    (h : i < nodes.length) : getN (nodes.set i v) i = v := by
  unfold getN
  exact getD_set_same v dfltNode h

theorem getN_set_other {nodes : List Node} {i j : Nat} (v : Node)
    (h : i ≠ j) : getN (nodes.set i v) j = getN nodes j := by
  unfold getN
  exact getD_set_other v dfltNode h

theorem modifyNode_some {nodes nodes' : List Node} {i : Nat} {g : Node → Node}
    (h : modifyNode nodes i g = some nodes') :
    i < nodes.length ∧ nodes' = nodes.set i (g (getN nodes i)) := by
  unfold modifyNode at h
  by_cases hi : i < nodes.length
  · simp [hi] at h
    exact ⟨hi, h.symm⟩
  · simp [hi] at h

theorem setLeafIdx_some {li li' : List Nat} {p v : Nat}
    (h : setLeafIdx li p v = some li') :
    p < li.length ∧ li' = li.set p v := by
  unfold setLeafIdx at h
  by_cases hp : p < li.length
  · simp [hp] at h
    exact ⟨hp, h.symm⟩
  · simp [hp] at h

/-!  Ancestor-chain lemmas for the implicit heap layout. -/

theorem par_lt {k : Nat} (h : 0 < k) : par k < k := by
  unfold par
  omega

theorem par_left (i : Nat) : par (2 * i + 1) = i := by
  unfold par
  omega

theorem par_right (i : Nat) : par (2 * i + 2) = i := by
  unfold par
  omega

theorem ancChainF_stable (k : Nat) : ∀ f1 f2, k < f1 → k < f2 →
    ancChainF f1 k = ancChainF f2 k := by
  induction k using Nat.strong_induction_on with
  | _ k ih =>
    intro f1 f2 h1 h2
    match f1, f2 with
    | g1 + 1, g2 + 1 =>
      by_cases hk : k = 0
      · simp [ancChainF, hk]
      · have hp : par k < k := par_lt (by omega)
        simp only [ancChainF, if_neg hk]
        rw [ih (par k) hp g1 g2 (by omega) (by omega)]

theorem ancChain_zero : ancChain 0 = [0] := rfl

theorem ancChain_succ {k : Nat} (h : k ≠ 0) :
    ancChain k = k :: ancChain (par k) := by
  unfold ancChain
  conv_lhs => rw [ancChainF]
  rw [if_neg h]
  have hp : par k < k := par_lt (by omega)
  rw [ancChainF_stable (par k) k (par k + 1) hp (by omega)]

theorem mem_ancChain_self (k : Nat) : k ∈ ancChain k := by
  by_cases hk : k = 0
  · subst hk
    rw [ancChain_zero]
    exact List.mem_singleton.mpr rfl
  · rw [ancChain_succ hk]
    exact List.mem_cons_self k _

theorem mem_ancChain_le {m k : Nat} (h : m ∈ ancChain k) : m ≤ k := by
  induction k using Nat.strong_induction_on with
  | _ k ih =>
    by_cases hk : k = 0
    · subst hk
      rw [ancChain_zero] at h
      simp at h
      omega
    · rw [ancChain_succ hk] at h
      rcases List.mem_cons.mp h with h1 | h1
      · omega
      · have := ih (par k) (par_lt (by omega)) h1
        have := par_lt (show 0 < k by omega)
        omega

theorem zero_mem_ancChain (k : Nat) : 0 ∈ ancChain k := by
  induction k using Nat.strong_induction_on with
  | _ k ih =>
    by_cases hk : k = 0
    · subst hk
      rw [ancChain_zero]
      exact List.mem_singleton.mpr rfl
    · rw [ancChain_succ hk]
      exact List.mem_cons_of_mem k (ih (par k) (par_lt (by omega)))

theorem ancChain_trans {a k : Nat} (h : a ∈ ancChain k) :
    ancChain a ⊆ ancChain k := by
  induction k using Nat.strong_induction_on with
  | _ k ih =>
    by_cases hk : k = 0
    · subst hk
      rw [ancChain_zero] at h
      simp at h
      subst h
      exact fun x hx => hx
    · rw [ancChain_succ hk] at h ⊢
      rcases List.mem_cons.mp h with h1 | h1
      · subst h1
        rw [← ancChain_succ hk]
        exact fun x hx => hx
      · intro x hx
        exact List.mem_cons_of_mem k (ih (par k) (par_lt (by omega)) h1 hx)

theorem par_mem_ancChain {k : Nat} (h : k ≠ 0) : par k ∈ ancChain k := by
  rw [ancChain_succ h]
  exact List.mem_cons_of_mem k (mem_ancChain_self (par k))

theorem mem_ancChain_left (i k : Nat) (h : i ∈ ancChain k) :
    i ∈ ancChain (2 * k + 1) := by
  rw [ancChain_succ (by omega), par_left]
  exact List.mem_cons_of_mem _ h

theorem mem_ancChain_right (i k : Nat) (h : i ∈ ancChain k) :
    i ∈ ancChain (2 * k + 2) := by
  rw [ancChain_succ (by omega), par_right]
  exact List.mem_cons_of_mem _ h

theorem sibling_not_both {i j : Nat} :
    ¬(2 * i + 1 ∈ ancChain j ∧ 2 * i + 2 ∈ ancChain j) := by
  induction j using Nat.strong_induction_on with
  | _ j ih =>
    rintro ⟨h1, h2⟩
    by_cases hj : j = 0
    · subst hj
      rw [ancChain_zero] at h1
      simp at h1
    · rw [ancChain_succ hj] at h1 h2
      rcases List.mem_cons.mp h1 with e1 | e1 <;>
        rcases List.mem_cons.mp h2 with e2 | e2
      · omega
      · have := mem_ancChain_le e2
        have : par j = i := by rw [← e1, par_left]
        omega
      · have := mem_ancChain_le e1
        have : par j = i := by rw [← e2, par_right]
        omega
      · exact ih (par j) (par_lt (by omega)) ⟨e1, e2⟩

theorem ancChain_step {a k : Nat} (h : a ∈ ancChain k) (hne : a ≠ k) :
    ∃ c, par c = a ∧ c ∈ ancChain k ∧ (c = 2 * a + 1 ∨ c = 2 * a + 2) := by
  induction k using Nat.strong_induction_on with
  | _ k ih =>
    by_cases hk : k = 0
    · subst hk
      rw [ancChain_zero] at h
      simp at h
      omega
    · rw [ancChain_succ hk] at h
      rcases List.mem_cons.mp h with h1 | h1
      · omega
      · by_cases hpk : a = par k
        · refine ⟨k, hpk ▸ rfl, mem_ancChain_self k, ?_⟩
          unfold par at hpk
          omega
        · obtain ⟨c, hc1, hc2, hc3⟩ := ih (par k) (par_lt (by omega)) h1 hpk
          exact ⟨c, hc1, ancChain_trans (par_mem_ancChain hk) hc2, hc3⟩

/-!  Lemmas about the recursion-tree triples `TNL`. -/

theorem TNL_anchor_le {i0 s0 e0 i s e : Nat} (h : TNL i0 s0 e0 i s e) :
    i0 ≤ i := by
  induction h with
  | root => exact Nat.le_refl i0
  | left _ _ ih => omega
  | right _ _ ih => omega

theorem TNL_range {i0 s0 e0 i s e : Nat} (h : TNL i0 s0 e0 i s e)
    (h0 : s0 ≤ e0) : s0 ≤ s ∧ e ≤ e0 ∧ s ≤ e := by
  induction h with
  | root => omega
  | left _ hlt ih => omega
  | right _ hlt ih => omega

theorem TNL_anchor_mem {i0 s0 e0 i s e : Nat} (h : TNL i0 s0 e0 i s e) :
    i0 ∈ ancChain i := by
  induction h with
  | root => exact mem_ancChain_self i0
  | left _ _ ih => exact mem_ancChain_left _ _ ih
  | right _ _ ih => exact mem_ancChain_right _ _ ih

theorem TNL_at_anchor {i0 s0 e0 s e : Nat} (h : TNL i0 s0 e0 i0 s e) :
    s = s0 ∧ e = e0 := by
  cases h with
  | root => exact ⟨rfl, rfl⟩
  | left hp hlt => have := TNL_anchor_le hp; omega
  | right hp hlt => have := TNL_anchor_le hp; omega

theorem TNL_parent {i0 s0 e0 i s e : Nat} (h : TNL i0 s0 e0 i s e)
    (hne : i ≠ i0) :
    ∃ sp ep, TNL i0 s0 e0 (par i) sp ep ∧ sp < ep ∧
      ((i = 2 * par i + 1 ∧ s = sp ∧ e = (sp + ep) / 2) ∨
       (i = 2 * par i + 2 ∧ s = (sp + ep) / 2 + 1 ∧ e = ep)) := by
  cases h with
  | root => omega
  | left hp hlt =>
    rename_i j ej
    refine ⟨s, ej, ?_, hlt, Or.inl ⟨?_, rfl, rfl⟩⟩
    · rw [par_left]; exact hp
    · rw [par_left]
  | right hp hlt =>
    rename_i j sj
    refine ⟨sj, e, ?_, hlt, Or.inr ⟨?_, rfl, rfl⟩⟩
    · rw [par_right]; exact hp
    · rw [par_right]

theorem TNL_det {i0 s0 e0 : Nat} :
    ∀ i s e s' e', TNL i0 s0 e0 i s e → TNL i0 s0 e0 i s' e' →
      s = s' ∧ e = e' := by
  intro i
  induction i using Nat.strong_induction_on with
  | _ i ih =>
    intro s e s' e' h1 h2
    by_cases hi : i = i0
    · subst hi
      obtain ⟨a1, a2⟩ := TNL_at_anchor h1
      obtain ⟨b1, b2⟩ := TNL_at_anchor h2
      omega
    · obtain ⟨sp, ep, hp, hlt, hcase⟩ := TNL_parent h1 hi
      obtain ⟨sp', ep', hp', hlt', hcase'⟩ := TNL_parent h2 hi
      have hilt : par i < i := by
        have := TNL_anchor_le h1
        exact par_lt (by omega)
      obtain ⟨q1, q2⟩ := ih (par i) hilt sp ep sp' ep' hp hp'
      omega

theorem TNL_compose {i0 s0 e0 i1 s1 e1 j s e : Nat}
    (h1 : TNL i0 s0 e0 i1 s1 e1) (h2 : TNL i1 s1 e1 j s e) :
    TNL i0 s0 e0 j s e := by
  induction h2 with
  | root => exact h1
  | left hp hlt ih => exact TNL.left ih hlt
  | right hp hlt ih => exact TNL.right ih hlt

theorem TNL_split {i s e j s2 e2 : Nat} (h : TNL i s e j s2 e2)
    (hlt : s < e) :
    (j = i ∧ s2 = s ∧ e2 = e) ∨
    TNL (2 * i + 1) s ((s + e) / 2) j s2 e2 ∨
    TNL (2 * i + 2) ((s + e) / 2 + 1) e j s2 e2 := by
  induction h with
  | root => exact Or.inl ⟨rfl, rfl, rfl⟩
  | @left a sa ea hp hl ih =>
    rcases ih with ⟨q1, q2, q3⟩ | hL | hR
    · subst q1; subst q2; subst q3
      exact Or.inr (Or.inl TNL.root)
    · exact Or.inr (Or.inl (TNL.left hL hl))
    · exact Or.inr (Or.inr (TNL.left hR hl))
  | @right a sa ea hp hl ih =>
    rcases ih with ⟨q1, q2, q3⟩ | hL | hR
    · subst q1; subst q2; subst q3
      exact Or.inr (Or.inr TNL.root)
    · exact Or.inr (Or.inl (TNL.right hL hl))
    · exact Or.inr (Or.inr (TNL.right hR hl))

theorem TN_chain_node {E : Nat} :
    ∀ j s e, TNL 0 0 E j s e → ∀ c ∈ ancChain j, ∃ sc ec, TNL 0 0 E c sc ec := by
  intro j
  induction j using Nat.strong_induction_on with
  | _ j ih =>
    intro s e h c hc
    by_cases hj : j = 0
    · subst hj
      rw [ancChain_zero] at hc
      simp at hc
      subst hc
      exact ⟨s, e, h⟩
    · rw [ancChain_succ hj] at hc
      rcases List.mem_cons.mp hc with h1 | h1
      · subst h1; exact ⟨s, e, h⟩
      · obtain ⟨sp, ep, hp, _, _⟩ := TNL_parent h hj
        exact ih (par j) (par_lt (by omega)) sp ep hp c h1

theorem TN_range_sub {E : Nat} :
    ∀ d c sc ec sd ed, TNL 0 0 E c sc ec → TNL 0 0 E d sd ed →
      c ∈ ancChain d → sc ≤ sd ∧ ed ≤ ec := by
  intro d
  induction d using Nat.strong_induction_on with
  | _ d ih =>
    intro c sc ec sd ed hc hd hmem
    by_cases hcd : c = d
    · subst hcd
      obtain ⟨q1, q2⟩ := TNL_det c sc ec sd ed hc hd
      omega
    · by_cases hdz : d = 0
      · subst hdz
        rw [ancChain_zero] at hmem
        simp at hmem
        omega
      · obtain ⟨sp, ep, hp, hlt, hcase⟩ := TNL_parent hd hdz
        have hmem' : c ∈ ancChain (par d) := by
          rw [ancChain_succ hdz] at hmem
          rcases List.mem_cons.mp hmem with h1 | h1
          · omega
          · exact h1
        have := ih (par d) (par_lt (by omega)) c sc ec sp ep hc hp hmem'
        omega

theorem TN_overlap_anc {E i s e i' s' e' p : Nat} (h1 : TNL 0 0 E i s e)
    (h2 : TNL 0 0 E i' s' e') (hs' : s' ≤ p) (he' : p ≤ e') :
    s ≤ p → p ≤ e → i ∈ ancChain i' ∨ i' ∈ ancChain i := by
  induction h1 with
  | root =>
    intro _ _
    exact Or.inl (zero_mem_ancChain i')
  | @left a sa ea hparent hlt ih =>
    intro hs he
    rcases ih (by omega) (by omega) with hL | hR
    · by_cases hai : a = i'
      · subst hai
        exact Or.inr (by
          rw [ancChain_succ (by omega : 2 * a + 1 ≠ 0), par_left]
          exact List.mem_cons_of_mem _ (mem_ancChain_self a))
      · obtain ⟨c, hc1, hc2, hc3⟩ := ancChain_step hL hai
        rcases hc3 with e1 | e1
        · subst e1
          exact Or.inl hc2
        · subst e1
          have hcr : TNL 0 0 E (2 * a + 2) ((sa + ea) / 2 + 1) ea :=
            TNL.right hparent hlt
          have := TN_range_sub i' (2 * a + 2) _ _ s' e' hcr h2 hc2
          omega
    · exact Or.inr (mem_ancChain_left _ _ hR)
  | @right a sa ea hparent hlt ih =>
    intro hs he
    rcases ih (by omega) (by omega) with hL | hR
    · by_cases hai : a = i'
      · subst hai
        exact Or.inr (by
          rw [ancChain_succ (by omega : 2 * a + 2 ≠ 0), par_right]
          exact List.mem_cons_of_mem _ (mem_ancChain_self a))
      · obtain ⟨c, hc1, hc2, hc3⟩ := ancChain_step hL hai
        rcases hc3 with e1 | e1
        · subst e1
          have hcl : TNL 0 0 E (2 * a + 1) sa ((sa + ea) / 2) :=
            TNL.left hparent hlt
          have := TN_range_sub i' (2 * a + 1) _ _ s' e' hcl h2 hc2
          omega
        · subst e1
          exact Or.inl hc2
    · exact Or.inr (mem_ancChain_right _ _ hR)

theorem TN_leaf_exists {E : Nat} :
    ∀ d i s e p, e - s = d → TNL 0 0 E i s e → s ≤ p → p ≤ e →
      ∃ L, TNL 0 0 E L p p ∧ i ∈ ancChain L := by
  intro d
  induction d using Nat.strong_induction_on with
  | _ d ih =>
    intro i s e p hd h hs he
    by_cases hse : s = e
    · have hps : p = s := by omega
      subst hps
      exact ⟨i, hse ▸ h, mem_ancChain_self i⟩
    · have hlt : s < e := by omega
      by_cases hm : p ≤ (s + e) / 2
      · obtain ⟨L, hL1, hL2⟩ := ih ((s + e) / 2 - s) (by omega)
          (2 * i + 1) s ((s + e) / 2) p rfl (TNL.left h hlt) hs hm
        refine ⟨L, hL1, ?_⟩
        have : i ∈ ancChain (2 * i + 1) :=
          mem_ancChain_left i i (mem_ancChain_self i)
        exact ancChain_trans hL2 this
      · obtain ⟨L, hL1, hL2⟩ := ih (e - ((s + e) / 2 + 1)) (by omega)
          (2 * i + 2) ((s + e) / 2 + 1) e p rfl (TNL.right h hlt)
          (by omega) he
        refine ⟨L, hL1, ?_⟩
        have : i ∈ ancChain (2 * i + 2) :=
          mem_ancChain_right i i (mem_ancChain_self i)
        exact ancChain_trans hL2 this

theorem TN_cover_anc {E j s' e' L p : Nat} (hj : TNL 0 0 E j s' e')
    (hL : TNL 0 0 E L p p) (hs : s' ≤ p) (he : p ≤ e') :
    j ∈ ancChain L := by
  rcases TN_overlap_anc hj hL (Nat.le_refl p) (Nat.le_refl p) hs he with h | h
  · exact h
  · have := TN_range_sub j L p p s' e' hL hj h
    have hs'p : s' = p := by omega
    have he'p : e' = p := by omega
    rw [hs'p, he'p] at hj
    by_cases hLj : L = j
    · subst hLj
      exact mem_ancChain_self L
    · obtain ⟨c, hc1, hc2, hc3⟩ := ancChain_step h hLj
      obtain ⟨sc, ec, hcT⟩ := TN_chain_node j p p hj c hc2
      have hcz : c ≠ 0 := by omega
      obtain ⟨sp, ep, hpT, hplt, _⟩ := TNL_parent hcT hcz
      rw [hc1] at hpT
      obtain ⟨q1, q2⟩ := TNL_det L sp ep p p hpT hL
      omega

/-!  Lemmas about the visited-slot list of the build recursion. -/

theorem buildVisitedF_stable : ∀ d i s e f1 f2, e - s = d → s ≤ e →
    e - s < f1 → e - s < f2 →
    buildVisitedF f1 i s e = buildVisitedF f2 i s e := by
  intro d
  induction d using Nat.strong_induction_on with
  | _ d ih =>
    intro i s e f1 f2 hd hle h1 h2
    match f1, f2 with
    | g1 + 1, g2 + 1 =>
      by_cases hse : s = e
      · simp [buildVisitedF, hse]
      · simp only [buildVisitedF, if_neg hse]
        have hm1 : s ≤ (s + e) / 2 := by omega
        have hm2 : (s + e) / 2 < e := by omega
        rw [ih ((s + e) / 2 - s) (by omega) (2 * i + 1) s ((s + e) / 2)
              g1 g2 rfl (by omega) (by omega) (by omega),
            ih (e - ((s + e) / 2 + 1)) (by omega) (2 * i + 2)
              ((s + e) / 2 + 1) e g1 g2 rfl (by omega) (by omega) (by omega)]

theorem buildVisited_leaf (i s : Nat) : buildVisited i s s = [i] := by
  unfold buildVisited
  have h : s + 1 - s = 1 := by omega
  rw [h]
  simp [buildVisitedF]

theorem buildVisited_node {i s e : Nat} (h : s < e) :
    buildVisited i s e = i :: (buildVisited (2 * i + 1) s ((s + e) / 2) ++
      buildVisited (2 * i + 2) ((s + e) / 2 + 1) e) := by
  unfold buildVisited
  have h1 : e + 1 - s = (e - s) + 1 := by omega
  rw [h1]
  simp only [buildVisitedF, if_neg (by omega : ¬ s = e)]
  rw [buildVisitedF_stable ((s + e) / 2 - s) (2 * i + 1) s ((s + e) / 2)
        (e - s) ((s + e) / 2 + 1 - s) rfl (by omega) (by omega)
        (by omega),
      buildVisitedF_stable (e - ((s + e) / 2 + 1)) (2 * i + 2)
        ((s + e) / 2 + 1) e (e - s) (e + 1 - ((s + e) / 2 + 1)) rfl
        (by omega) (by omega) (by omega)]

theorem mem_buildVisited_anc : ∀ d i s e j, e - s = d →
    j ∈ buildVisited i s e → i ∈ ancChain j := by
  intro d
  induction d using Nat.strong_induction_on with
  | _ d ih =>
    intro i s e j hd hmem
    by_cases hse : s = e
    · subst hse
      rw [buildVisited_leaf] at hmem
      simp at hmem
      rw [hmem]
      exact mem_ancChain_self i
    · by_cases hle : s < e
      · rw [buildVisited_node hle] at hmem
        rcases List.mem_cons.mp hmem with h1 | h1
        · rw [h1]
          exact mem_ancChain_self i
        · rcases List.mem_append.mp h1 with h2 | h2
          · have := ih ((s + e) / 2 - s) (by omega) (2 * i + 1) s
              ((s + e) / 2) j rfl h2
            exact ancChain_trans this
              (mem_ancChain_left i i (mem_ancChain_self i))
          · have := ih (e - ((s + e) / 2 + 1)) (by omega) (2 * i + 2)
              ((s + e) / 2 + 1) e j rfl h2
            exact ancChain_trans this
              (mem_ancChain_right i i (mem_ancChain_self i))
      · exfalso
        unfold buildVisited at hmem
        have h0 : e + 1 - s = 0 := by omega
        rw [h0] at hmem
        simp [buildVisitedF] at hmem

theorem buildVisited_length : ∀ d i s e, e - s = d → s ≤ e →
    (buildVisited i s e).length = 2 * (e - s) + 1 := by
  intro d
  induction d using Nat.strong_induction_on with
  | _ d ih =>
    intro i s e hd hle
    by_cases hse : s = e
    · subst hse
      rw [buildVisited_leaf]
      simp
    · have hlt : s < e := by omega
      rw [buildVisited_node hlt]
      simp only [List.length_cons, List.length_append]
      rw [ih ((s + e) / 2 - s) (by omega) (2 * i + 1) s ((s + e) / 2)
            rfl (by omega),
          ih (e - ((s + e) / 2 + 1)) (by omega) (2 * i + 2)
            ((s + e) / 2 + 1) e rfl (by omega)]
      omega

theorem buildVisited_nodup : ∀ d i s e, e - s = d →
    (buildVisited i s e).Nodup := by
  intro d
  induction d using Nat.strong_induction_on with
  | _ d ih =>
    intro i s e hd
    by_cases hse : s = e
    · subst hse
      rw [buildVisited_leaf]
      simp
    · by_cases hle : s < e
      · rw [buildVisited_node hle]
        rw [List.nodup_cons, List.nodup_append]
        refine ⟨?_, ih ((s + e) / 2 - s) (by omega) _ _ _ rfl,
          ih (e - ((s + e) / 2 + 1)) (by omega) _ _ _ rfl, ?_⟩
        · intro hmem
          rcases List.mem_append.mp hmem with h2 | h2
          · have := mem_ancChain_le
              (mem_buildVisited_anc ((s + e) / 2 - s) (2 * i + 1) s
                ((s + e) / 2) i rfl h2)
            omega
          · have := mem_ancChain_le
              (mem_buildVisited_anc (e - ((s + e) / 2 + 1)) (2 * i + 2)
                ((s + e) / 2 + 1) e i rfl h2)
            omega
        · intro j hj1 hj2
          have a1 := mem_buildVisited_anc ((s + e) / 2 - s) (2 * i + 1) s
            ((s + e) / 2) j rfl hj1
          have a2 := mem_buildVisited_anc (e - ((s + e) / 2 + 1)) (2 * i + 2)
            ((s + e) / 2 + 1) e j rfl hj2
          exact sibling_not_both ⟨a1, a2⟩
      · unfold buildVisited
        have h0 : e + 1 - s = 0 := by omega
        rw [h0]
        simp [buildVisitedF]

theorem self_mem_buildVisited {j s e : Nat} (h : s ≤ e) :
    j ∈ buildVisited j s e := by
  by_cases hse : s = e
  · subst hse
    rw [buildVisited_leaf]
    simp
  · rw [buildVisited_node (by omega)]
    exact List.mem_cons_self j _

theorem TNL_visited_subset {i s e a sa ea : Nat} (h : TNL i s e a sa ea) :
    buildVisited a sa ea ⊆ buildVisited i s e := by
  induction h with
  | root => exact fun x hx => hx
  | @left b sb eb hp hlt ih =>
    intro x hx
    apply ih
    rw [buildVisited_node hlt]
    exact List.mem_cons_of_mem _ (List.mem_append.mpr (Or.inl hx))
  | @right b sb eb hp hlt ih =>
    intro x hx
    apply ih
    rw [buildVisited_node hlt]
    exact List.mem_cons_of_mem _ (List.mem_append.mpr (Or.inr hx))

theorem TNL_mem_visited {i s e j s2 e2 : Nat} (h : TNL i s e j s2 e2)
    (hle : s ≤ e) : j ∈ buildVisited i s e := by
  have hr := TNL_range h hle
  exact TNL_visited_subset h (self_mem_buildVisited (by omega))

theorem mem_visited_TNL : ∀ d i s e j, e - s = d → s ≤ e →
    j ∈ buildVisited i s e → ∃ s2 e2, TNL i s e j s2 e2 := by
  intro d
  induction d using Nat.strong_induction_on with
  | _ d ih =>
    intro i s e j hd hle hmem
    by_cases hse : s = e
    · subst hse
      rw [buildVisited_leaf] at hmem
      simp at hmem
      subst hmem
      exact ⟨s, s, TNL.root⟩
    · have hlt : s < e := by omega
      rw [buildVisited_node hlt] at hmem
      rcases List.mem_cons.mp hmem with h1 | h1
      · subst h1
        exact ⟨s, e, TNL.root⟩
      · rcases List.mem_append.mp h1 with h2 | h2
        · obtain ⟨s2, e2, hT⟩ := ih ((s + e) / 2 - s) (by omega) (2 * i + 1)
            s ((s + e) / 2) j rfl (by omega) h2
          exact ⟨s2, e2, TNL_compose (TNL.left TNL.root hlt) hT⟩
        · obtain ⟨s2, e2, hT⟩ := ih (e - ((s + e) / 2 + 1)) (by omega)
            (2 * i + 2) ((s + e) / 2 + 1) e j rfl (by omega) h2
          exact ⟨s2, e2, TNL_compose (TNL.right TNL.root hlt) hT⟩

/-!  Inversion of a successful build step. -/

theorem get?_some_getD {α : Type} {l : List α} {i : Nat} {v : α} (d : α)
    (h : l.get? i = some v) : l.getD i d = v := by
  induction l generalizing i with
  | nil => simp at h
  | cons a l ih =>
    cases i with
    | zero => simp at h; simp [List.getD, h]
    | succ i =>
      simp only [List.get?] at h
      simp only [List.getD_cons_succ]
      exact ih h

theorem get?_some_lt {α : Type} {l : List α} {i : Nat} {v : α}
    (h : l.get? i = some v) : i < l.length := by
  induction l generalizing i with
  | nil => simp at h
  | cons a l ih =>
    cases i with
    | zero => simp
    | succ i =>
      simp only [List.get?] at h
      have := ih h
      simp
      omega

theorem build_leaf_inv {fuel : Nat} {nodes : List Node} {li : List Nat}
    {node s e : Nat} {input : List Int} {r : List Node × List Nat × Int}
    (hb : SegmentTree.build_nodes_recursive (fuel + 1) nodes li node s e
      input = some r) (hse : s = e) :
    ∃ v nodes1 li1, input.get? s = some v ∧
      modifyNode nodes node
        (fun nd => { nd with value := v, start := s, stop := e }) =
          some nodes1 ∧
      setLeafIdx li s node = some li1 ∧ r = (nodes1, li1, v) := by
  unfold SegmentTree.build_nodes_recursive at hb
  rw [if_pos hse] at hb
  split at hb
  · cases hb
  · rename_i v hv
    split at hb
    · cases hb
    · rename_i nodes1 hn
      split at hb
      · cases hb
      · rename_i li1 hl
        exact ⟨v, nodes1, li1, hv, hn, hl, by cases hb; rfl⟩

theorem build_node_inv {fuel : Nat} {nodes : List Node} {li : List Nat}
    {node s e : Nat} {input : List Int} {r : List Node × List Nat × Int}
    (hb : SegmentTree.build_nodes_recursive (fuel + 1) nodes li node s e
      input = some r) (hse : ¬ s = e) :
    ∃ nodes1 nodes2 li2 ls nodes3 li3 rs nodes4,
      modifyNode nodes node
        (fun nd => { nd with left := some (2 * node + 1),
                             right := some (2 * node + 2),
                             start := s, stop := e }) = some nodes1 ∧
      SegmentTree.build_nodes_recursive fuel nodes1 li (2 * node + 1) s
        ((s + e) / 2) input = some (nodes2, li2, ls) ∧
      SegmentTree.build_nodes_recursive fuel nodes2 li2 (2 * node + 2)
        ((s + e) / 2 + 1) e input = some (nodes3, li3, rs) ∧
      modifyNode nodes3 node (fun nd => { nd with value := wadd ls rs }) =
        some nodes4 ∧
      r = (nodes4, li3, wadd ls rs) := by
  unfold SegmentTree.build_nodes_recursive at hb
  rw [if_neg hse] at hb
  dsimp only at hb
  cases hn1 : modifyNode nodes node
      (fun nd => { nd with left := some (2 * node + 1),
                           right := some (2 * node + 2),
                           start := s, stop := e }) with
  | none => rw [hn1] at hb; simp at hb
  | some nodes1 =>
    rw [hn1] at hb
    dsimp only at hb
    cases hbl : SegmentTree.build_nodes_recursive fuel nodes1 li
        (2 * node + 1) s ((s + e) / 2) input with
    | none => rw [hbl] at hb; simp at hb
    | some p =>
      obtain ⟨nodes2, li2, ls⟩ := p
      rw [hbl] at hb
      dsimp only at hb
      cases hbr : SegmentTree.build_nodes_recursive fuel nodes2 li2
          (2 * node + 2) ((s + e) / 2 + 1) e input with
      | none => rw [hbr] at hb; simp at hb
      | some p2 =>
        obtain ⟨nodes3, li3, rs⟩ := p2
        rw [hbr] at hb
        dsimp only at hb
        cases hn4 : modifyNode nodes3 node
            (fun nd => { nd with value := wadd ls rs }) with
        | none => rw [hn4] at hb; simp at hb
        | some nodes4 =>
          rw [hn4] at hb
          dsimp only at hb
          exact ⟨nodes1, nodes2, li2, ls, nodes3, li3, rs, nodes4,
            rfl, hbl, hbr, hn4, by cases hb; rfl⟩

theorem TNL_leaf_only {i s j s2 e2 : Nat} (h : TNL i s s j s2 e2) :
    j = i ∧ s2 = s ∧ e2 = s := by
  cases h with
  | root => exact ⟨rfl, rfl, rfl⟩
  | left hp hlt =>
    have := TNL_range hp (Nat.le_refl s)
    omega
  | right hp hlt =>
    have := TNL_range hp (Nat.le_refl s)
    omega

theorem child_not_self_left {i j s e : Nat}
    (h : j ∈ buildVisited (2 * i + 1) s e) : j ≠ i := by
  intro hji
  have hle2 := mem_ancChain_le (mem_buildVisited_anc (e - s) (2 * i + 1) s e j
    rfl h)
  omega

theorem child_not_self_right {i j s e : Nat}
    (h : j ∈ buildVisited (2 * i + 2) s e) : j ≠ i := by
  intro hji
  have hle2 := mem_ancChain_le (mem_buildVisited_anc (e - s) (2 * i + 2) s e j
    rfl h)
  omega

theorem visited_children_disjoint {i j s1 e1 s2 e2 : Nat}
    (h1 : j ∈ buildVisited (2 * i + 1) s1 e1)
    (h2 : j ∈ buildVisited (2 * i + 2) s2 e2) : False := by
  have a1 := mem_buildVisited_anc (e1 - s1) (2 * i + 1) s1 e1 j rfl h1
  have a2 := mem_buildVisited_anc (e2 - s2) (2 * i + 2) s2 e2 j rfl h2
  exact sibling_not_both ⟨a1, a2⟩

/-!  Correctness of a successful build: sums, frames, and node facts. -/

theorem build_ok : ∀ fuel nodes li node s e input nodes' li' v,
    SegmentTree.build_nodes_recursive fuel nodes li node s e input =
      some (nodes', li', v) →
    s ≤ e →
    (∀ k, s ≤ k → k ≤ e → wrap (input.getD k 0) = input.getD k 0) →
    (∀ j, j ∈ buildVisited node s e →
      (getN nodes j).left = none ∧ (getN nodes j).right = none) →
    v = wrap (rangeSum (fun k => input.getD k 0) s e) ∧
    nodes'.length = nodes.length ∧
    li'.length = li.length ∧
    (∀ j, j ∉ buildVisited node s e → getN nodes' j = getN nodes j) ∧
    (∀ p, p < s ∨ e < p → li'.getD p 0 = li.getD p 0) ∧
    (∀ j s2 e2, TNL node s e j s2 e2 →
      nodeOK nodes' li' (fun k => input.getD k 0) (fun _ => False) j s2 e2) := by
  intro fuel
  induction fuel with
  | zero =>
    intro nodes li node s e input nodes' li' v hb
    simp [SegmentTree.build_nodes_recursive] at hb
  | succ fuel ih =>
    intro nodes li node s e input nodes' li' v hb hse helem hnone
    by_cases hleaf : s = e
    · subst hleaf
      obtain ⟨v0, nodes1, li1, hv, hn, hl, hr⟩ := build_leaf_inv hb rfl
      simp only [Prod.mk.injEq] at hr
      obtain ⟨h1, h2, h3⟩ := hr
      subst h1
      subst h2
      subst h3
      obtain ⟨hnb, hn1eq⟩ := modifyNode_some hn
      obtain ⟨hlb, hl1eq⟩ := setLeafIdx_some hl
      subst hn1eq
      subst hl1eq
      have hvd : input.getD s 0 = v := get?_some_getD 0 hv
      have hw : wrap (input.getD s 0) = input.getD s 0 :=
        helem s (Nat.le_refl s) (Nat.le_refl s)
      have hval : v = wrap (rangeSum (fun k => input.getD k 0) s s) := by
        rw [rangeSum_single]
        show v = wrap (input.getD s 0)
        rw [hw]
        exact hvd.symm
      refine ⟨hval, by simp, by simp, ?_, ?_, ?_⟩
      · intro j hj
        rw [buildVisited_leaf] at hj
        simp at hj
        exact getN_set_other _ (fun he => hj he.symm)
      · intro p hp
        exact getD_set_other _ _ (by omega)
      · intro j s2 e2 hT
        obtain ⟨hj1, hj2, hj3⟩ := TNL_leaf_only hT
        subst hj1
        subst hj2
        subst hj3
        have hself := hnone j (by rw [buildVisited_leaf]; simp)
        refine ⟨by simpa using hnb,
          by rw [getN_set_same _ hnb],
          by rw [getN_set_same _ hnb],
          ?_, ?_, ?_⟩
        · intro _
          rw [getN_set_same _ hnb]
          exact hval ▸ rfl
        · intro _
          rw [getN_set_same _ hnb]
          refine ⟨hself.1, hself.2, ?_⟩
          exact getD_set_same _ _ hlb
        · intro hc
          omega
    · have hlt : s < e := by omega
      obtain ⟨nodes1, nodes2, li2, ls, nodes3, li3, rs, nodes4,
        hn1, hbl, hbr, hn4, hr⟩ := build_node_inv hb hleaf
      simp only [Prod.mk.injEq] at hr
      obtain ⟨h1, h2, h3⟩ := hr
      subst h1
      subst h2
      obtain ⟨hnb, hn1eq⟩ := modifyNode_some hn1
      have hmem_l : ∀ j, j ∈ buildVisited (2 * node + 1) s ((s + e) / 2) →
          j ∈ buildVisited node s e := by
        intro j hj
        rw [buildVisited_node hlt]
        exact List.mem_cons_of_mem _ (List.mem_append.mpr (Or.inl hj))
      have hmem_r : ∀ j,
          j ∈ buildVisited (2 * node + 2) ((s + e) / 2 + 1) e →
          j ∈ buildVisited node s e := by
        intro j hj
        rw [buildVisited_node hlt]
        exact List.mem_cons_of_mem _ (List.mem_append.mpr (Or.inr hj))
      have ihL := ih nodes1 li (2 * node + 1) s ((s + e) / 2) input
        nodes2 li2 ls hbl (by omega)
        (fun k hk1 hk2 => helem k hk1 (by omega))
        (by
          intro j hj
          rw [hn1eq, getN_set_other _ (fun he =>
            (child_not_self_left hj) he.symm)]
          exact hnone j (hmem_l j hj))
      obtain ⟨hls, hlen2, hlilen2, hframe2, hliframe2, hok2⟩ := ihL
      have ihR := ih nodes2 li2 (2 * node + 2) ((s + e) / 2 + 1) e input
        nodes3 li' rs hbr (by omega)
        (fun k hk1 hk2 => helem k (by omega) hk2)
        (by
          intro j hj
          rw [hframe2 j (fun hj2 => visited_children_disjoint hj2 hj),
            hn1eq, getN_set_other _ (fun he =>
              (child_not_self_right hj) he.symm)]
          exact hnone j (hmem_r j hj))
      obtain ⟨hrs, hlen3, hlilen3, hframe3, hliframe3, hok3⟩ := ihR
      obtain ⟨hnb3, hn4eq⟩ := modifyNode_some hn4
      have hnotR : node ∉ buildVisited (2 * node + 2) ((s + e) / 2 + 1) e :=
        fun hmem => (child_not_self_right hmem) rfl
      have hnotL : node ∉ buildVisited (2 * node + 1) s ((s + e) / 2) :=
        fun hmem => (child_not_self_left hmem) rfl
      have hget3 : getN nodes3 node = getN nodes1 node := by
        rw [hframe3 node hnotR, hframe2 node hnotL]
      have hget1 : getN nodes1 node =
          { getN nodes node with
            left := some (2 * node + 1)
            right := some (2 * node + 2)
            start := s
            stop := e } := by
        rw [hn1eq]
        exact getN_set_same _ hnb
      have hval : v = wrap (rangeSum (fun k => input.getD k 0) s e) := by
        rw [h3, hls, hrs, wadd_wrap,
          rangeSum_split (fun k => input.getD k 0) (by omega : s ≤ (s + e) / 2)
            (by omega : (s + e) / 2 < e)]
      refine ⟨hval, ?_, ?_, ?_, ?_, ?_⟩
      · rw [hn4eq]
        simp only [List.length_set]
        rw [hlen3, hlen2, hn1eq]
        simp
      · rw [hlilen3, hlilen2]
      · intro j hj
        have hjn : j ≠ node := by
          intro he
          subst he
          exact hj (self_mem_buildVisited (by omega))
        rw [hn4eq, getN_set_other _ (fun he => hjn he.symm),
          hframe3 j (fun hm => hj (hmem_r j hm)),
          hframe2 j (fun hm => hj (hmem_l j hm)),
          hn1eq, getN_set_other _ (fun he => hjn he.symm)]
      · intro p hp
        rw [hliframe3 p (by omega), hliframe2 p (by omega)]
      · intro j s2 e2 hT
        rcases TNL_split hT hlt with ⟨hj1, hj2, hj3⟩ | hL | hR
        · subst hj2
          subst hj3
          rw [hj1]
          have hb4 : node < nodes'.length := by
            rw [hn4eq]
            simpa using hnb3
          have hg4 : getN nodes' node =
              { getN nodes3 node with value := wadd ls rs } := by
            rw [hn4eq]
            exact getN_set_same _ hnb3
          rw [hget3, hget1] at hg4
          refine ⟨hb4, by rw [hg4], by rw [hg4], ?_, ?_, ?_⟩
          · intro _
            rw [hg4]
            rw [h3] at hval
            exact hval
          · intro hc
            omega
          · intro _
            rw [hg4]
            exact ⟨rfl, rfl⟩
        · have hjvis : j ∈ buildVisited (2 * node + 1) s ((s + e) / 2) :=
            TNL_mem_visited hL (by omega)
          have hjn : j ≠ node := child_not_self_left hjvis
          have hg : getN nodes' j = getN nodes2 j := by
            rw [hn4eq, getN_set_other _ (fun he => hjn he.symm),
              hframe3 j (fun hm => visited_children_disjoint hjvis hm)]
          have hrange := TNL_range hL (by omega)
          have hli : li'.getD s2 0 = li2.getD s2 0 :=
            hliframe3 s2 (by omega)
          obtain ⟨b1, b2, b3, b4, b5, b6⟩ := hok2 j s2 e2 hL
          refine ⟨?_, by rw [hg]; exact b2, by rw [hg]; exact b3, ?_, ?_, ?_⟩
          · rw [hn4eq]
            simp only [List.length_set]
            rw [hlen3]
            exact b1
          · intro hx
            rw [hg]
            exact b4 hx
          · intro hx
            rw [hg, hli]
            exact b5 hx
          · intro hx
            rw [hg]
            exact b6 hx
        · have hjvis : j ∈ buildVisited (2 * node + 2) ((s + e) / 2 + 1) e :=
            TNL_mem_visited hR (by omega)
          have hjn : j ≠ node := child_not_self_right hjvis
          have hg : getN nodes' j = getN nodes3 j := by
            rw [hn4eq, getN_set_other _ (fun he => hjn he.symm)]
          obtain ⟨b1, b2, b3, b4, b5, b6⟩ := hok3 j s2 e2 hR
          refine ⟨?_, by rw [hg]; exact b2, by rw [hg]; exact b3, ?_, ?_, ?_⟩
          · rw [hn4eq]
            simp only [List.length_set]
            exact b1
          · intro hx
            rw [hg]
            exact b4 hx
          · intro hx
            rw [hg]
            exact b5 hx
          · intro hx
            rw [hg]
            exact b6 hx

/-!  Correctness of the query recursion on a well-formed arena. -/

theorem interSum_split {f : Nat → Int} {lo hi s e : Nat} (hlh : lo ≤ hi)
    (hse : s < e) (hnc : ¬(lo ≤ s ∧ e ≤ hi)) (hnd : ¬(hi < s ∨ e < lo)) :
    rangeSum f (max lo s) (min hi ((s + e) / 2)) +
      rangeSum f (max lo ((s + e) / 2 + 1)) (min hi e) =
    rangeSum f (max lo s) (min hi e) := by
  rcases le_or_lt hi ((s + e) / 2) with hc | hc
  · rw [rangeSum_empty f (max lo ((s + e) / 2 + 1)) (min hi e) (by omega)]
    have e1 : min hi ((s + e) / 2) = min hi e := by omega
    rw [e1]
    ring
  · rcases le_or_lt lo ((s + e) / 2) with hd | hd
    · have e1 : min hi ((s + e) / 2) = (s + e) / 2 := by omega
      have e2 : max lo ((s + e) / 2 + 1) = (s + e) / 2 + 1 := by omega
      rw [e1, e2]
      exact (rangeSum_split f (by omega) (by omega)).symm
    · rw [rangeSum_empty f (max lo s) (min hi ((s + e) / 2)) (by omega)]
      have e1 : max lo ((s + e) / 2 + 1) = max lo s := by omega
      rw [e1]
      ring

theorem queryRec_ok {t : SegmentTree} {E : Nat} {f : Nat → Int}
    (hWF : WF E t.nodes t.leaf_indices f) :
    ∀ d fuel i s e lo hi, e - s = d → TNL 0 0 E i s e → lo ≤ hi →
    e - s < fuel →
    t.internal_query_recursive fuel i lo hi =
      some (wrap (rangeSum f (max lo s) (min hi e))) := by
  intro d
  induction d using Nat.strong_induction_on with
  | _ d ih =>
    intro fuel i s e lo hi hd hT hlh hfuel
    match fuel with
    | g + 1 =>
      obtain ⟨b1, b2, b3, b4, b5, b6⟩ := hWF i s e hT
      have hval : (getN t.nodes i).value = wrap (rangeSum f s e) :=
        b4 not_false
      have hget : t.nodes.get? i = some (getN t.nodes i) :=
        get?_eq_getD dfltNode b1
      have hrange := TNL_range hT (by omega)
      unfold SegmentTree.internal_query_recursive
      rw [hget]
      dsimp only
      rw [b2, b3]
      by_cases hcont : lo ≤ s ∧ e ≤ hi
      · rw [if_pos hcont, hval]
        have e1 : max lo s = s := by omega
        have e2 : min hi e = e := by omega
        rw [e1, e2]
      · rw [if_neg hcont]
        by_cases hdisj : hi < s ∨ e < lo
        · rw [if_pos hdisj]
          rw [rangeSum_empty f (max lo s) (min hi e) (by omega), wrap_zero]
        · rw [if_neg hdisj]
          have hlt : s < e := by omega
          rw [b6 hlt |>.1, b6 hlt |>.2]
          dsimp only
          rw [ih ((s + e) / 2 - s) (by omega) g (2 * i + 1) s ((s + e) / 2)
                lo hi rfl (TNL.left hT hlt) hlh (by omega),
              ih (e - ((s + e) / 2 + 1)) (by omega) g (2 * i + 2)
                ((s + e) / 2 + 1) e lo hi rfl (TNL.right hT hlt) hlh
                (by omega)]
          dsimp only
          rw [wadd_wrap, interSum_split hlh hlt hcont hdisj]

/-!  The upward propagation loop of `update`. -/

theorem WFX_iff {E : Nat} {nodes : List Node} {li : List Nat}
    {f : Nat → Int} {bad1 bad2 : Nat → Prop}
    (h : ∀ m, bad1 m ↔ bad2 m) (hW : WFX E nodes li f bad1) :
    WFX E nodes li f bad2 := by
  intro i s e hT
  obtain ⟨c1, c2, c3, c4, c5, c6⟩ := hW i s e hT
  exact ⟨c1, c2, c3, fun hb => c4 (fun hb1 => hb ((h i).mp hb1)), c5, c6⟩

theorem bad_chain_shift {k m : Nat} (hk : k ≠ 0) :
    (m ∈ ancChain k ∧ m ≠ k) ↔ m ∈ ancChain (par k) := by
  constructor
  · rintro ⟨h1, h2⟩
    rw [ancChain_succ hk] at h1
    rcases List.mem_cons.mp h1 with h3 | h3
    · omega
    · exact h3
  · intro h1
    have hle := mem_ancChain_le h1
    have hpk : par k < k := par_lt (by omega)
    constructor
    · rw [ancChain_succ hk]
      exact List.mem_cons_of_mem _ h1
    · omega

theorem updA_frame : ∀ fuel nodes k nodes',
    SegmentTree.update_ancestors fuel nodes k = some nodes' →
    nodes'.length = nodes.length ∧
    (∀ j, j ∉ ancChain k → getN nodes' j = getN nodes j) ∧
    (∀ j, (getN nodes' j).start = (getN nodes j).start ∧
      (getN nodes' j).stop = (getN nodes j).stop ∧
      (getN nodes' j).left = (getN nodes j).left ∧
      (getN nodes' j).right = (getN nodes j).right) := by
  intro fuel
  induction fuel with
  | zero =>
    intro nodes k nodes' h
    simp [SegmentTree.update_ancestors] at h
  | succ fuel ih =>
    intro nodes k nodes' h
    unfold SegmentTree.update_ancestors at h
    by_cases hk : k = 0
    · rw [if_pos hk] at h
      cases h
      exact ⟨rfl, fun j _ => rfl, fun j => ⟨rfl, rfl, rfl, rfl⟩⟩
    · rw [if_neg hk] at h
      dsimp only at h
      cases hg : nodes.get? ((k - 1) / 2) with
      | none => rw [hg] at h; simp at h
      | some nd =>
        rw [hg] at h
        dsimp only at h
        cases hgl : nd.left with
        | none => rw [hgl] at h; simp at h
        | some lc =>
          rw [hgl] at h
          cases hgr : nd.right with
          | none => rw [hgr] at h; simp at h
          | some rc =>
            rw [hgr] at h
            dsimp only at h
            cases hgl2 : nodes.get? lc with
            | none => rw [hgl2] at h; simp at h
            | some lnd =>
              rw [hgl2] at h
              cases hgr2 : nodes.get? rc with
              | none => rw [hgr2] at h; simp at h
              | some rnd =>
                rw [hgr2] at h
                dsimp only at h
                cases hm : modifyNode nodes ((k - 1) / 2)
                    (fun nd => { nd with
                      value := wadd lnd.value rnd.value }) with
                | none => rw [hm] at h; simp at h
                | some nodes1 =>
                  rw [hm] at h
                  dsimp only at h
                  obtain ⟨hmb, hmeq⟩ := modifyNode_some hm
                  obtain ⟨f1, f2, f3⟩ := ih nodes1 ((k - 1) / 2) nodes' h
                  have hparc : (k - 1) / 2 ∈ ancChain k := by
                    have := par_mem_ancChain hk
                    unfold par at this
                    exact this
                  refine ⟨by rw [f1, hmeq]; simp, ?_, ?_⟩
                  · intro j hj
                    have hj2 : j ∉ ancChain ((k - 1) / 2) := by
                      intro hmem
                      exact hj (ancChain_trans hparc hmem)
                    have hjne : j ≠ (k - 1) / 2 := by
                      intro he
                      exact hj (he ▸ hparc)
                    rw [f2 j hj2, hmeq,
                      getN_set_other _ (fun he => hjne he.symm)]
                  · intro j
                    obtain ⟨g1, g2, g3, g4⟩ := f3 j
                    by_cases hje : j = (k - 1) / 2
                    · subst hje
                      rw [g1, g2, g3, g4, hmeq, getN_set_same _ hmb]
                      exact ⟨rfl, rfl, rfl, rfl⟩
                    · rw [g1, g2, g3, g4, hmeq,
                        getN_set_other _ (fun he => hje he.symm)]
                      exact ⟨rfl, rfl, rfl, rfl⟩

theorem updA_ok {E : Nat} {li : List Nat} {f : Nat → Int} :
    ∀ k fuel nodes, k < fuel →
    (∃ sk ek, TNL 0 0 E k sk ek) →
    WFX E nodes li f (fun m => m ∈ ancChain k ∧ m ≠ k) →
    ∃ nodes', SegmentTree.update_ancestors fuel nodes k = some nodes' ∧
      WF E nodes' li f := by
  intro k
  induction k using Nat.strong_induction_on with
  | _ k ihk =>
    intro fuel nodes hfuel htrip hW
    match fuel with
    | g + 1 =>
      by_cases hk : k = 0
      · subst hk
        refine ⟨nodes, ?_, ?_⟩
        · unfold SegmentTree.update_ancestors
          rw [if_pos rfl]
        · refine WFX_iff (fun m => ⟨?_, False.elim⟩) hW
          rintro ⟨h1, h2⟩
          rw [ancChain_zero] at h1
          simp at h1
          exact h2 h1
      · obtain ⟨sk, ek, hkT⟩ := htrip
        obtain ⟨sp, ep, hpT, hplt, hcase⟩ := TNL_parent hkT hk
        have hltT := TNL.left hpT hplt
        have hrtT := TNL.right hpT hplt
        obtain ⟨p1, p2, p3, p4, p5, p6⟩ := hW (par k) sp ep hpT
        obtain ⟨l1, l2, l3, l4, l5, l6⟩ :=
          hW (2 * par k + 1) sp ((sp + ep) / 2) hltT
        obtain ⟨r1, r2, r3, r4, r5, r6⟩ :=
          hW (2 * par k + 2) ((sp + ep) / 2 + 1) ep hrtT
        have hpk : par k < k := par_lt (by omega)
        have hnbadl : ¬((2 * par k + 1) ∈ ancChain k ∧ 2 * par k + 1 ≠ k) := by
          rw [bad_chain_shift hk]
          intro hmem
          have := mem_ancChain_le hmem
          omega
        have hnbadr : ¬((2 * par k + 2) ∈ ancChain k ∧ 2 * par k + 2 ≠ k) := by
          rw [bad_chain_shift hk]
          intro hmem
          have := mem_ancChain_le hmem
          omega
        have hlv := l4 hnbadl
        have hrv := r4 hnbadr
        have hpl := (p6 hplt).1
        have hpr := (p6 hplt).2
        have hmod : modifyNode nodes (par k)
            (fun nd => { nd with value := wadd (getN nodes (2 * par k + 1)).value (getN nodes (2 * par k + 2)).value }) =
            some (nodes.set (par k) { getN nodes (par k) with value := wadd (getN nodes (2 * par k + 1)).value (getN nodes (2 * par k + 2)).value }) := by
          unfold modifyNode
          rw [if_pos p1]
        have hW1 : WFX E
            (nodes.set (par k) { getN nodes (par k) with value := wadd (getN nodes (2 * par k + 1)).value (getN nodes (2 * par k + 2)).value }) li f
            (fun m => m ∈ ancChain (par k) ∧ m ≠ par k) := by
          intro j s2 e2 hT2
          obtain ⟨c1, c2, c3, c4, c5, c6⟩ := hW j s2 e2 hT2
          by_cases hj : j = par k
          · subst hj
            obtain ⟨q1, q2⟩ := TNL_det (par k) s2 e2 sp ep hT2 hpT
            rw [q1, q2]
            have hgj := getN_set_same
              { getN nodes (par k) with value := wadd (getN nodes (2 * par k + 1)).value (getN nodes (2 * par k + 2)).value } p1
            refine ⟨by simpa using p1, by rw [hgj]; exact p2,
              by rw [hgj]; exact p3, ?_, ?_, ?_⟩
            · intro _
              rw [hgj]
              show wadd (getN nodes (2 * par k + 1)).value
                (getN nodes (2 * par k + 2)).value = _
              rw [hlv, hrv, wadd_wrap,
                rangeSum_split f (by omega : sp ≤ (sp + ep) / 2)
                  (by omega : (sp + ep) / 2 < ep)]
            · intro hc
              omega
            · intro hc
              rw [hgj]
              exact ⟨hpl, hpr⟩
          · have hgj : getN (nodes.set (par k)
                { getN nodes (par k) with value := wadd (getN nodes (2 * par k + 1)).value (getN nodes (2 * par k + 2)).value }) j = getN nodes j :=
              getN_set_other _ (fun he => hj he.symm)
            refine ⟨by simpa using c1, by rw [hgj]; exact c2,
              by rw [hgj]; exact c3, ?_,
              fun hc => by rw [hgj]; exact c5 hc,
              fun hc => by rw [hgj]; exact c6 hc⟩
            intro hb
            rw [hgj]
            refine c4 ?_
            intro hbk
            rw [bad_chain_shift hk] at hbk
            exact hb ⟨hbk, hj⟩
        have ihp := ihk (par k) hpk g
          (nodes.set (par k) { getN nodes (par k) with value := wadd (getN nodes (2 * par k + 1)).value (getN nodes (2 * par k + 2)).value })
          (by omega) ⟨sp, ep, hpT⟩ hW1
        obtain ⟨nodes', heq, hWF'⟩ := ihp
        refine ⟨nodes', ?_, hWF'⟩
        unfold SegmentTree.update_ancestors
        rw [if_neg hk]
        dsimp only
        rw [show (k - 1) / 2 = par k from rfl]
        rw [get?_eq_getD dfltNode p1]
        dsimp only
        have hpl2 : (nodes.getD (par k) dfltNode).left =
            some (2 * par k + 1) := hpl
        have hpr2 : (nodes.getD (par k) dfltNode).right =
            some (2 * par k + 2) := hpr
        rw [hpl2, hpr2]
        dsimp only
        rw [get?_eq_getD dfltNode l1, get?_eq_getD dfltNode r1]
        dsimp only
        have hmod2 : modifyNode nodes (par k)
            (fun nd => { nd with value := wadd (nodes.getD (2 * par k + 1) dfltNode).value (nodes.getD (2 * par k + 2) dfltNode).value }) =
            some (nodes.set (par k) { getN nodes (par k) with value := wadd (getN nodes (2 * par k + 1)).value (getN nodes (2 * par k + 2)).value }) :=
          hmod
        rw [hmod2]
        dsimp only
        exact heq

/-!  Validation facts and the correctness of `new`. -/

theorem getD_mem {α : Type} {l : List α} {i : Nat} (d : α)
    (h : i < l.length) : l.getD i d ∈ l := by
  induction l generalizing i with
  | nil => simp at h
  | cons a l ih =>
    cases i with
    | zero => simp [List.getD]
    | succ i =>
      simp only [List.getD_cons_succ]
      exact List.mem_cons_of_mem a (ih (by simpa using h))

theorem wrap_of_halfrange {x : Int} (h1 : MIN_VALUE ≤ x) (h2 : x ≤ MAX_VALUE) :
    wrap x = x := by
  simp only [MIN_VALUE] at h1
  simp only [MAX_VALUE] at h2
  exact wrap_eq_self (by omega) (by omega)

theorem validate_elems_ok : ∀ l : List Int, validate_elems l = Except.ok () →
    ∀ x ∈ l, MIN_VALUE ≤ x ∧ x ≤ MAX_VALUE := by
  intro l
  induction l with
  | nil => intro _ x hx; simp at hx
  | cons a l ih =>
    intro h x hx
    unfold validate_elems at h
    by_cases h1 : a < MIN_VALUE
    · rw [if_pos h1] at h; simp at h
    · rw [if_neg h1] at h
      by_cases h2 : MAX_VALUE < a
      · rw [if_pos h2] at h; simp at h
      · rw [if_neg h2] at h
        rcases List.mem_cons.mp hx with he | hm
        · subst he; omega
        · exact ih h x hm

theorem validate_input_facts {input : List Int}
    (h : SegmentTree.validate_input input = Except.ok ()) :
    1 ≤ input.length ∧ input.length ≤ MAX_INPUT_SIZE ∧
    ∀ x ∈ input, MIN_VALUE ≤ x ∧ x ≤ MAX_VALUE := by
  unfold SegmentTree.validate_input at h
  by_cases h1 : input.length = 0
  · rw [if_pos h1] at h; simp at h
  · rw [if_neg h1] at h
    by_cases h2 : MAX_INPUT_SIZE < input.length
    · rw [if_pos h2] at h; simp at h
    · rw [if_neg h2] at h
      exact ⟨by omega, by omega, validate_elems_ok input h⟩

theorem new_inv {input : List Int} {t : SegmentTree}
    (h : SegmentTree.new input = some (Except.ok t)) :
    SegmentTree.validate_input input = Except.ok () ∧
    ∃ nodes' li' v,
      SegmentTree.build_nodes_recursive input.length
        (SegmentTree.reserve_nodes
          (SegmentTree.get_segment_tree_size input.length))
        (List.replicate input.length 0) 0 0 (input.length - 1) input =
        some (nodes', li', v) ∧
      t = { nodes := nodes', leaf_len := input.length,
            leaf_indices := li' } := by
  unfold SegmentTree.new at h
  cases hv : SegmentTree.validate_input input with
  | error e => rw [hv] at h; simp at h
  | ok u =>
    cases u
    rw [hv] at h
    dsimp only at h
    refine ⟨rfl, ?_⟩
    cases hb : SegmentTree.build_nodes_recursive input.length
        (SegmentTree.reserve_nodes
          (SegmentTree.get_segment_tree_size input.length))
        (List.replicate input.length 0) 0 0 (input.length - 1) input with
    | none => rw [hb] at h; simp at h
    | some p =>
      obtain ⟨nodes', li', v⟩ := p
      rw [hb] at h
      dsimp only at h
      refine ⟨nodes', li', v, rfl, ?_⟩
      simp only [Option.some.injEq, Except.ok.injEq] at h
      exact h.symm

theorem new_good {input : List Int} {t : SegmentTree}
    (h : SegmentTree.new input = some (Except.ok t)) :
    Good t (fun k => input.getD k 0) ∧ t.leaf_len = input.length := by
  obtain ⟨hv, nodes', li', v, hb, ht⟩ := new_inv h
  obtain ⟨hlen1, hlenmax, helems⟩ := validate_input_facts hv
  have hbd : ∀ k, k < input.length →
      MIN_VALUE ≤ input.getD k 0 ∧ input.getD k 0 ≤ MAX_VALUE :=
    fun k hk => helems (input.getD k 0) (getD_mem 0 hk)
  have hbo := build_ok input.length
    (SegmentTree.reserve_nodes
      (SegmentTree.get_segment_tree_size input.length))
    (List.replicate input.length 0) 0 0 (input.length - 1) input
    nodes' li' v hb (by omega)
    (fun k _ hk2 =>
      wrap_of_halfrange (hbd k (by omega)).1 (hbd k (by omega)).2)
    (fun j _ => by
      unfold SegmentTree.reserve_nodes getN
      rw [getD_replicate]
      exact ⟨rfl, rfl⟩)
  obtain ⟨_, _, hlilen, hframe, _, hok⟩ := hbo
  subst ht
  refine ⟨⟨by simpa using hlen1, ?_, ?_, ?_, ?_⟩, rfl⟩
  · show li'.length = input.length
    rw [hlilen]
    simp
  · intro i s e hT
    exact hok i s e hT
  · intro k hk
    exact hbd k (by simpa using hk)
  · intro j hj
    show getN nodes' j = dfltNode
    rw [hframe j hj]
    unfold SegmentTree.reserve_nodes getN
    rw [getD_replicate]

/-!  Inversion and correctness of `update`. -/

theorem update_inv {t : SegmentTree} {idx : Nat} {v : Int} {t' : SegmentTree}
    (h : SegmentTree.update t idx v = some (t', Except.ok ())) :
    SegmentTree.validate_public_update t idx v = Except.ok () ∧
    ∃ L nodes1 nodes2, t.leaf_indices.get? idx = some L ∧
      modifyNode t.nodes L (fun nd => { nd with value := v }) = some nodes1 ∧
      SegmentTree.update_ancestors (L + 1) nodes1 L = some nodes2 ∧
      t' = { t with nodes := nodes2 } := by
  unfold SegmentTree.update at h
  cases hv : SegmentTree.validate_public_update t idx v with
  | error e => rw [hv] at h; simp at h
  | ok u =>
    cases u
    rw [hv] at h
    dsimp only at h
    refine ⟨rfl, ?_⟩
    cases hL : t.leaf_indices.get? idx with
    | none => rw [hL] at h; simp at h
    | some L =>
      rw [hL] at h
      dsimp only at h
      cases hm : modifyNode t.nodes L (fun nd => { nd with value := v }) with
      | none => rw [hm] at h; simp at h
      | some nodes1 =>
        rw [hm] at h
        dsimp only at h
        cases hA : SegmentTree.update_ancestors (L + 1) nodes1 L with
        | none => rw [hA] at h; simp at h
        | some nodes2 =>
          rw [hA] at h
          dsimp only at h
          simp only [Option.some.injEq, Prod.mk.injEq] at h
          exact ⟨L, nodes1, nodes2, rfl, hm, hA, h.1.symm⟩

theorem validate_update_facts {t : SegmentTree} {idx : Nat} {v : Int}
    (h : SegmentTree.validate_public_update t idx v = Except.ok ()) :
    1 ≤ t.leaf_len ∧ idx < t.leaf_len ∧ MIN_VALUE ≤ v ∧ v ≤ MAX_VALUE := by
  unfold SegmentTree.validate_public_update at h
  by_cases h1 : t.leaf_len = 0
  · rw [if_pos h1] at h; simp at h
  · rw [if_neg h1] at h
    by_cases h2 : t.leaf_len ≤ idx
    · rw [if_pos h2] at h; simp at h
    · rw [if_neg h2] at h
      by_cases h3 : MAX_VALUE < v ∨ v < MIN_VALUE
      · rw [if_pos h3] at h; simp at h
      · rw [if_neg h3] at h
        push_neg at h3
        exact ⟨by omega, by omega, h3.2, h3.1⟩

theorem update_good {t : SegmentTree} {f : Nat → Int} {idx : Nat} {v : Int}
    (hG : Good t f) (hidx : idx < t.leaf_len) (hv1 : MIN_VALUE ≤ v)
    (hv2 : v ≤ MAX_VALUE) :
    ∃ t', SegmentTree.update t idx v = some (t', Except.ok ()) ∧
      Good t' (updF f idx v) ∧ t'.leaf_len = t.leaf_len ∧
      t'.leaf_indices = t.leaf_indices := by
  obtain ⟨g1, g2, g3, g4, g5⟩ := hG
  have hval : SegmentTree.validate_public_update t idx v = Except.ok () := by
    unfold SegmentTree.validate_public_update
    rw [if_neg (by omega), if_neg (by omega),
      if_neg (fun hor => hor.elim
        (fun hlt => absurd hv2 (not_le.mpr hlt))
        (fun hlt => absurd hv1 (not_le.mpr hlt)))]
  obtain ⟨L, hLT, hLanc⟩ := TN_leaf_exists (t.leaf_len - 1) 0 0
    (t.leaf_len - 1) idx (by omega) TNL.root (by omega) (by omega)
  obtain ⟨c1, c2, c3, c4, c5, c6⟩ := g3 L idx idx hLT
  have hli : t.leaf_indices.getD idx 0 = L := (c5 rfl).2.2
  have hget : t.leaf_indices.get? idx = some L := by
    rw [get?_eq_getD 0 (by omega : idx < t.leaf_indices.length), hli]
  have hmod : modifyNode t.nodes L (fun nd => { nd with value := v }) =
      some (t.nodes.set L { getN t.nodes L with value := v }) := by
    unfold modifyNode
    rw [if_pos c1]
  have hWx : WFX (t.leaf_len - 1)
      (t.nodes.set L { getN t.nodes L with value := v }) t.leaf_indices
      (updF f idx v) (fun m => m ∈ ancChain L ∧ m ≠ L) := by
    intro j s2 e2 hT2
    obtain ⟨b1, b2, b3, b4, b5, b6⟩ := g3 j s2 e2 hT2
    by_cases hj : j = L
    · subst hj
      obtain ⟨q1, q2⟩ := TNL_det j s2 e2 idx idx hT2 hLT
      rw [q1, q2]
      have hgj := getN_set_same { getN t.nodes j with value := v } c1
      refine ⟨by simpa using c1, by rw [hgj]; exact c2,
        by rw [hgj]; exact c3, ?_, ?_, ?_⟩
      · intro _
        rw [hgj]
        show v = wrap (rangeSum (updF f idx v) idx idx)
        rw [rangeSum_single]
        show v = wrap (if idx = idx then v else f idx)
        rw [if_pos rfl]
        exact (wrap_of_halfrange hv1 hv2).symm
      · intro _
        rw [hgj]
        exact ⟨(c5 rfl).1, (c5 rfl).2.1, hli⟩
      · intro hc
        omega
    · have hgj : getN (t.nodes.set L { getN t.nodes L with value := v }) j =
          getN t.nodes j := getN_set_other _ (fun he => hj he.symm)
      refine ⟨by simpa using b1, by rw [hgj]; exact b2,
        by rw [hgj]; exact b3, ?_,
        fun hc => by rw [hgj]; exact b5 hc,
        fun hc => by rw [hgj]; exact b6 hc⟩
      intro hnb
      rw [hgj]
      by_cases hin : s2 ≤ idx ∧ idx ≤ e2
      · exact absurd ⟨TN_cover_anc hT2 hLT hin.1 hin.2, hj⟩ hnb
      · rw [show rangeSum (updF f idx v) s2 e2 = rangeSum f s2 e2 from
          rangeSum_congr (fun k hk1 hk2 => by
            unfold updF
            rw [if_neg (by omega)])]
        exact b4 not_false
  obtain ⟨nodes2, hloop, hWF2⟩ := updA_ok L (L + 1)
    (t.nodes.set L { getN t.nodes L with value := v }) (by omega)
    ⟨idx, idx, hLT⟩ hWx
  refine ⟨{ t with nodes := nodes2 }, ?_, ⟨by simpa using g1, ?_, ?_, ?_, ?_⟩,
    rfl, rfl⟩
  · unfold SegmentTree.update
    rw [hval]
    dsimp only
    rw [hget]
    dsimp only
    rw [hmod]
    dsimp only
    rw [hloop]
  · exact g2
  · exact hWF2
  · intro k hk
    unfold updF inHalfRange
    by_cases hki : k = idx
    · rw [if_pos hki]
      exact ⟨hv1, hv2⟩
    · rw [if_neg hki]
      exact g4 k hk
  · intro j hj
    show getN nodes2 j = dfltNode
    have hjanc : j ∉ ancChain L := by
      intro hmem
      obtain ⟨sc, ec, hcT⟩ := TN_chain_node L idx idx hLT j hmem
      exact hj (TNL_mem_visited hcT (by omega))
    have hjL : j ≠ L := by
      intro he
      exact hj (he ▸ TNL_mem_visited hLT (by omega))
    obtain ⟨f1, f2, f3⟩ := updA_frame (L + 1)
      (t.nodes.set L { getN t.nodes L with value := v }) L nodes2 hloop
    rw [f2 j hjanc, getN_set_other _ (fun he => hjL he.symm)]
    exact g5 j hj

theorem update_frame {t : SegmentTree} {idx : Nat} {v : Int}
    {t' : SegmentTree}
    (h : SegmentTree.update t idx v = some (t', Except.ok ())) :
    t'.leaf_len = t.leaf_len ∧ t'.leaf_indices = t.leaf_indices ∧
    t'.nodes.length = t.nodes.length ∧
    (∀ j, j ∉ ancChain (t.leaf_indices.getD idx 0) →
      getN t'.nodes j = getN t.nodes j) ∧
    (∀ j, (getN t'.nodes j).start = (getN t.nodes j).start ∧
      (getN t'.nodes j).stop = (getN t.nodes j).stop ∧
      (getN t'.nodes j).left = (getN t.nodes j).left ∧
      (getN t'.nodes j).right = (getN t.nodes j).right) := by
  obtain ⟨hval, L, nodes1, nodes2, hget, hmod, hloop, ht'⟩ := update_inv h
  have hL : t.leaf_indices.getD idx 0 = L := get?_some_getD 0 hget
  obtain ⟨hmb, hmeq⟩ := modifyNode_some hmod
  obtain ⟨f1, f2, f3⟩ := updA_frame (L + 1) nodes1 L nodes2 hloop
  subst ht'
  refine ⟨rfl, rfl, ?_, ?_, ?_⟩
  · show nodes2.length = t.nodes.length
    rw [f1, hmeq]
    simp
  · intro j hj
    rw [hL] at hj
    have hjL : j ≠ L := by
      intro he
      exact hj (he ▸ mem_ancChain_self L)
    show getN nodes2 j = getN t.nodes j
    rw [f2 j hj, hmeq, getN_set_other _ (fun he => hjL he.symm)]
  · intro j
    obtain ⟨q1, q2, q3, q4⟩ := f3 j
    show (getN nodes2 j).start = (getN t.nodes j).start ∧ _
    rw [q1, q2, q3, q4, hmeq]
    by_cases hje : j = L
    · subst hje
      rw [getN_set_same _ hmb]
      exact ⟨rfl, rfl, rfl, rfl⟩
    · rw [getN_set_other _ (fun he => hje he.symm)]
      exact ⟨rfl, rfl, rfl, rfl⟩

theorem Reach_good {t : SegmentTree} (h : Reach t) : ∃ f, Good t f := by
  induction h with
  | base hnew => exact ⟨_, (new_good hnew).1⟩
  | step _ hupd ih =>
    obtain ⟨f, hG⟩ := ih
    obtain ⟨hval, _⟩ := update_inv hupd
    obtain ⟨_, hidx, hv1, hv2⟩ := validate_update_facts hval
    obtain ⟨t'', heq, hG', _, _⟩ := update_good hG hidx hv1 hv2
    rw [heq] at hupd
    simp only [Option.some.injEq, Prod.mk.injEq, and_true] at hupd
    rw [← hupd]
    exact ⟨_, hG'⟩

/-!  The full behaviour of `query` on a good tree. -/

theorem query_char {t : SegmentTree} {f : Nat → Int} (hG : Good t f)
    (lo hi : Nat) :
    SegmentTree.query t lo hi =
      if hi < lo then
        some (Except.error "Start index is greater than end index")
      else if t.leaf_len - 1 < lo then
        some (Except.error "Start index is out of bounds")
      else if t.leaf_len - 1 < hi then
        some (Except.error "End index is out of bounds")
      else some (Except.ok (wrap (rangeSum f lo hi))) := by
  obtain ⟨g1, g2, g3, g4, g5⟩ := hG
  unfold SegmentTree.query SegmentTree.validate_public_query
  rw [if_neg (by omega : ¬ t.leaf_len = 0)]
  by_cases h1 : hi < lo
  · rw [if_pos h1, if_pos h1]
  · rw [if_neg h1, if_neg h1]
    by_cases h2 : t.leaf_len - 1 < lo
    · rw [if_pos h2, if_pos h2]
    · rw [if_neg h2, if_neg h2]
      by_cases h3 : t.leaf_len - 1 < hi
      · rw [if_pos h3, if_pos h3]
      · rw [if_neg h3, if_neg h3]
        dsimp only
        rw [queryRec_ok g3 (t.leaf_len - 1) t.leaf_len 0 0 (t.leaf_len - 1)
          lo hi rfl TNL.root (by omega) (by omega)]
        dsimp only
        have e1 : max lo 0 = lo := by omega
        have e2 : min hi (t.leaf_len - 1) = hi := by omega
        rw [e1, e2]

/-!  The two copies of the structure are extensionally equal function by
function (refuting the spec's claimed divergences between them). -/

theorem mainVE_eq : MainSrc.validate_elems = validate_elems := by
  funext l
  induction l with
  | nil => rfl
  | cons a l ih =>
    unfold MainSrc.validate_elems validate_elems
    rw [ih]

theorem mainVI_eq : MainSrc.validate_input = SegmentTree.validate_input := by
  funext input
  unfold MainSrc.validate_input SegmentTree.validate_input
  rw [mainVE_eq]

theorem mainSize_eq :
    MainSrc.get_segment_tree_size = SegmentTree.get_segment_tree_size := rfl

theorem mainRes_eq : MainSrc.reserve_nodes = SegmentTree.reserve_nodes := rfl

theorem mainVQ_eq :
    MainSrc.validate_public_query = SegmentTree.validate_public_query := rfl

theorem mainVU_eq :
    MainSrc.validate_public_update = SegmentTree.validate_public_update := rfl

theorem mainBuild_eq :
    MainSrc.build_nodes = SegmentTree.build_nodes_recursive := by
  funext fuel
  induction fuel with
  | zero =>
    funext nodes li node s e input
    rfl
  | succ fuel ih =>
    funext nodes li node s e input
    unfold MainSrc.build_nodes SegmentTree.build_nodes_recursive
    rw [ih]

theorem mainNew_eq : MainSrc.new = SegmentTree.new := by
  funext input
  unfold MainSrc.new SegmentTree.new
  rw [mainVI_eq, mainSize_eq, mainRes_eq, mainBuild_eq]

theorem mainIQ_eq :
    MainSrc.internal_query_recursive =
      SegmentTree.internal_query_recursive := by
  funext t fuel
  induction fuel with
  | zero =>
    funext node_idx start stop
    rfl
  | succ fuel ih =>
    funext node_idx start stop
    unfold MainSrc.internal_query_recursive SegmentTree.internal_query_recursive
    rw [ih]

theorem mainQuery_eq : MainSrc.query = SegmentTree.query := by
  funext t start stop
  unfold MainSrc.query SegmentTree.query
  rw [mainVQ_eq, mainIQ_eq]

theorem mainUA_eq : MainSrc.update_ancestors = SegmentTree.update_ancestors := by
  funext fuel
  induction fuel with
  | zero =>
    funext nodes node_idx
    rfl
  | succ fuel ih =>
    funext nodes node_idx
    unfold MainSrc.update_ancestors SegmentTree.update_ancestors
    rw [ih]

theorem mainUpdate_eq : MainSrc.update = SegmentTree.update := by
  funext t index v
  unfold MainSrc.update SegmentTree.update
  rw [mainVU_eq, mainUA_eq]

/-!  Small helpers about `update` on a failed validation. -/

theorem update_error_eq {t : SegmentTree} {idx : Nat} {v : Int} {e : String}
    (h : SegmentTree.validate_public_update t idx v = Except.error e) :
    SegmentTree.update t idx v = some (t, Except.error e) := by
  unfold SegmentTree.update
  rw [h]

theorem validate_update_empty_msg {t : SegmentTree} {idx : Nat} {v : Int}
    {e : String} (hlen : 1 ≤ t.leaf_len)
    (h : SegmentTree.validate_public_update t idx v = Except.error e) :
    e ≠ "Segment tree is empty" := by
  unfold SegmentTree.validate_public_update at h
  rw [if_neg (by omega : ¬ t.leaf_len = 0)] at h
  by_cases h2 : t.leaf_len ≤ idx
  · rw [if_pos h2] at h
    simp only [Except.error.injEq] at h
    subst h
    decide
  · rw [if_neg h2] at h
    by_cases h3 : MAX_VALUE < v ∨ v < MIN_VALUE
    · rw [if_pos h3] at h
      simp only [Except.error.injEq] at h
      subst h
      decide
    · rw [if_neg h3] at h
      simp at h

/-!  Claim C1. -/

/-- Claim C1 (corrected form): for every sequence `s` accepted by `new` and
every valid query range `lo ≤ hi ≤ leaf_len - 1`, `query` on the freshly
built tree returns `Ok` of the range sum of `s` over `[lo, hi]` reduced by
two's-complement wrapping; whenever that exact sum fits in `isize` the
result is the exact sum. -/
theorem C1_query_returns_wrapped_range_sum (s : List Int) (t : SegmentTree)
    (lo hi : Nat) (hnew : SegmentTree.new s = some (Except.ok t))
    (h1 : lo ≤ hi) (h2 : hi ≤ t.leaf_len - 1) :
    SegmentTree.query t lo hi =
      some (Except.ok (wrap (rangeSum (fun k => s.getD k 0) lo hi))) ∧
    ((-9223372036854775808 ≤ rangeSum (fun k => s.getD k 0) lo hi ∧
      rangeSum (fun k => s.getD k 0) lo hi ≤ 9223372036854775807) →
      wrap (rangeSum (fun k => s.getD k 0) lo hi) =
        rangeSum (fun k => s.getD k 0) lo hi) := by
  have hG := (new_good hnew).1
  constructor
  · rw [query_char hG lo hi, if_neg (by omega : ¬ hi < lo),
      if_neg (by omega : ¬ t.leaf_len - 1 < lo),
      if_neg (by omega : ¬ t.leaf_len - 1 < hi)]
  · intro hb
    exact wrap_eq_self hb.1 hb.2

/-- Claim C1 witness: the valid query `(2, 5)` on the tree built from
`[1, 2, 3, 4, 5, 6, 7, 8]` returns the wrapped range sum. -/
theorem C1_witness_ex8 :
    SegmentTree.query (newOk ex8) 2 5 =
      some (Except.ok (wrap (rangeSum (fun k => ex8.getD k 0) 2 5))) :=
  (C1_query_returns_wrapped_range_sum ex8 (newOk ex8) 2 5 rfl (by decide)
    (by decide)).1

/-- Claim C1 counterexample: `cexWrapQ` is accepted by `new` (every element
within the half-range bound), the range `[1, 4]` is a valid query range,
its exact range sum is `2^63`, yet `query` returns `-2^63`: the claimed
exact sum is not returned. -/
theorem C1_cex_overflow :
    SegmentTree.new cexWrapQ = some (Except.ok (newOk cexWrapQ)) ∧
    SegmentTree.query (newOk cexWrapQ) 1 4 =
      some (Except.ok (-9223372036854775808)) ∧
    rangeSum (fun k => cexWrapQ.getD k 0) 1 4 = 9223372036854775808 ∧
    (-9223372036854775808 : Int) ≠ 9223372036854775808 :=
  ⟨rfl, rfl, by decide, by decide⟩

/-!  Claim C2. -/

/-- Claim C2 (corrected form): after a successful `update(idx, v)` on a
tree built from `s`, every valid `query(lo, hi)` returns `Ok` of the
wrapped range sum of the modified sequence `s.set idx v` — the tree is
observationally the tree of the modified sequence up to the same wrapping
that affects freshly built trees. -/
theorem C2_update_then_query_wrapped (s : List Int) (t t2 : SegmentTree)
    (idx : Nat) (v : Int) (lo hi : Nat)
    (hnew : SegmentTree.new s = some (Except.ok t))
    (hupd : SegmentTree.update t idx v = some (t2, Except.ok ()))
    (h1 : lo ≤ hi) (h2 : hi ≤ t2.leaf_len - 1) :
    SegmentTree.query t2 lo hi =
      some (Except.ok
        (wrap (rangeSum (fun k => (s.set idx v).getD k 0) lo hi))) := by
  obtain ⟨hG, hlen⟩ := new_good hnew
  obtain ⟨hval, _⟩ := update_inv hupd
  obtain ⟨_, hidx, hv1, hv2⟩ := validate_update_facts hval
  obtain ⟨t3, heq, hG3, hlen3, _⟩ := update_good hG hidx hv1 hv2
  rw [heq] at hupd
  simp only [Option.some.injEq, Prod.mk.injEq, and_true] at hupd
  rw [← hupd] at h2 ⊢
  have hs : idx < s.length := by omega
  rw [query_char hG3 lo hi, if_neg (by omega : ¬ hi < lo),
    if_neg (by omega : ¬ t3.leaf_len - 1 < lo),
    if_neg (by omega : ¬ t3.leaf_len - 1 < hi)]
  have hR : rangeSum (updF (fun k => s.getD k 0) idx v) lo hi =
      rangeSum (fun k => (s.set idx v).getD k 0) lo hi := by
    apply rangeSum_congr
    intro k _ _
    unfold updF
    by_cases hk : k = idx
    · rw [if_pos hk, hk, getD_set_same v 0 hs]
    · rw [if_neg hk, getD_set_other v 0 (fun he => hk he.symm)]
  rw [hR]

/-- Claim C2 witness: after `update(3, 10)` on the tree of
`[1, 2, 3, 4, 5, 6, 7, 8]`, the query `(0, 7)` returns the wrapped range
sum of the modified sequence. -/
theorem C2_witness_ex8 :
    SegmentTree.query (updOk (newOk ex8) 3 10) 0 7 =
      some (Except.ok
        (wrap (rangeSum (fun k => (ex8.set 3 10).getD k 0) 0 7))) :=
  C2_update_then_query_wrapped ex8 (newOk ex8) (updOk (newOk ex8) 3 10) 3 10
    0 7 rfl rfl (by decide) (by decide)

/-- Claim C2 counterexample: starting from the accepted sequence
`cexWrapQ0`, the accepted call `update(4, 2)` succeeds, the modified
sequence is `cexWrapQ0.set 4 2` with exact range sum `2^63` over `[1, 4]`,
yet the subsequent valid query returns `-2^63`, not the claimed sum of the
modified sequence. -/
theorem C2_cex_overflow :
    SegmentTree.new cexWrapQ0 = some (Except.ok (newOk cexWrapQ0)) ∧
    SegmentTree.update (newOk cexWrapQ0) 4 2 =
      some (updOk (newOk cexWrapQ0) 4 2, Except.ok ()) ∧
    SegmentTree.query (updOk (newOk cexWrapQ0) 4 2) 1 4 =
      some (Except.ok (-9223372036854775808)) ∧
    rangeSum (fun k => (cexWrapQ0.set 4 2).getD k 0) 1 4 =
      9223372036854775808 ∧
    (-9223372036854775808 : Int) ≠ 9223372036854775808 :=
  ⟨rfl, rfl, rfl, by decide, by decide⟩

/-!  Claim C3. -/

/-- Claim C3 (corrected form): in every reachable tree state, every
internal node's children sit at heap slots `2j+1` and `2j+2` and partition
its interval contiguously (`left.start = start`, `right.stop = stop`,
`left.stop + 1 = right.start`), and its value is the two's-complement
**wrapped** sum of its children's values (the exact equation
`value = left.value + right.value` fails when the sum overflows). -/
theorem C3_internal_node_invariant (t : SegmentTree) (j l r : Nat)
    (hR : Reach t) (hl : (getN t.nodes j).left = some l)
    (hr : (getN t.nodes j).right = some r) :
    l = 2 * j + 1 ∧ r = 2 * j + 2 ∧
    (getN t.nodes l).start = (getN t.nodes j).start ∧
    (getN t.nodes r).stop = (getN t.nodes j).stop ∧
    (getN t.nodes l).stop + 1 = (getN t.nodes r).start ∧
    (getN t.nodes j).value =
      wrap ((getN t.nodes l).value + (getN t.nodes r).value) := by
  obtain ⟨f, hG⟩ := Reach_good hR
  obtain ⟨g1, g2, g3, g4, g5⟩ := hG
  by_cases hjv : j ∈ buildVisited 0 0 (t.leaf_len - 1)
  · obtain ⟨s2, e2, hT⟩ := mem_visited_TNL (t.leaf_len - 1) 0 0
      (t.leaf_len - 1) j rfl (by omega) hjv
    obtain ⟨b1, b2, b3, b4, b5, b6⟩ := g3 j s2 e2 hT
    by_cases hse : s2 = e2
    · rw [(b5 hse).1] at hl
      simp at hl
    · have hr2 := TNL_range hT (by omega)
      have hlt : s2 < e2 := by omega
      have hl2 := (b6 hlt).1
      have hrr2 := (b6 hlt).2
      rw [hl2] at hl
      rw [hrr2] at hr
      have hleq : l = 2 * j + 1 := (Option.some.inj hl).symm
      have hreq : r = 2 * j + 2 := (Option.some.inj hr).symm
      subst hleq
      subst hreq
      obtain ⟨cl1, cl2, cl3, cl4, cl5, cl6⟩ :=
        g3 (2 * j + 1) s2 ((s2 + e2) / 2) (TNL.left hT hlt)
      obtain ⟨cr1, cr2, cr3, cr4, cr5, cr6⟩ :=
        g3 (2 * j + 2) ((s2 + e2) / 2 + 1) e2 (TNL.right hT hlt)
      refine ⟨rfl, rfl, ?_, ?_, ?_, ?_⟩
      · rw [cl2, b2]
      · rw [cr3, b3]
      · rw [cl3, cr2]
      · have hm1 : s2 ≤ (s2 + e2) / 2 := by omega
        have hm2 : (s2 + e2) / 2 < e2 := by omega
        rw [b4 not_false, cl4 not_false, cr4 not_false, wrap_add_left,
          wrap_add_right, ← rangeSum_split f hm1 hm2]
  · rw [g5 j hjv] at hl
    simp [dfltNode] at hl

/-- Claim C3 witness: the root of the tree built from
`[1, 2, 3, 4, 5, 6, 7, 8]` has children `1` and `2`, they partition its
interval, and its value is the wrapped sum of their values. -/
theorem C3_witness_ex8 :
    (1 : Nat) = 2 * 0 + 1 ∧ (2 : Nat) = 2 * 0 + 2 ∧
    (getN (newOk ex8).nodes 1).start = (getN (newOk ex8).nodes 0).start ∧
    (getN (newOk ex8).nodes 2).stop = (getN (newOk ex8).nodes 0).stop ∧
    (getN (newOk ex8).nodes 1).stop + 1 = (getN (newOk ex8).nodes 2).start ∧
    (getN (newOk ex8).nodes 0).value =
      wrap ((getN (newOk ex8).nodes 1).value +
        (getN (newOk ex8).nodes 2).value) :=
  C3_internal_node_invariant (newOk ex8) 0 1 2
    (Reach.base (show SegmentTree.new ex8 = some (Except.ok (newOk ex8))
      from rfl)) rfl rfl

/-- Claim C3 counterexample: on the accepted sequence `cexWrapB` (four
elements, all `2^62 - 1`), construction yields a root whose children's
values are `2^63 - 2` each, but the root's value is `-4`, not their exact
sum `2^64 - 4`: the claimed exact invariant
`value = left.value + right.value` fails already after construction. -/
theorem C3_cex_root_wrap :
    SegmentTree.new cexWrapB = some (Except.ok (newOk cexWrapB)) ∧
    (getN (newOk cexWrapB).nodes 0).left = some 1 ∧
    (getN (newOk cexWrapB).nodes 0).right = some 2 ∧
    (getN (newOk cexWrapB).nodes 0).value = -4 ∧
    (getN (newOk cexWrapB).nodes 1).value = 9223372036854775806 ∧
    (getN (newOk cexWrapB).nodes 2).value = 9223372036854775806 ∧
    (-4 : Int) ≠ 9223372036854775806 + 9223372036854775806 :=
  ⟨rfl, rfl, rfl, rfl, rfl, rfl, by decide⟩

/-!  Claim C4. -/

/-- Claim C4 (code bug): the input length `2^53 + 1 = 9007199254740993` is
accepted by validation, the spec-side size `2 * next_power_of_two(n) - 1`
is `2^55 - 1`, but `get_segment_tree_size` computes `2^54 - 1`: the
`as f64` cast rounds `2^53 + 1` down to `2^53` (ties-to-even at the first
unrepresentable odd integer), so `ceil(log2)` yields `53` instead of `54`
and the arena is undersized by half — the claimed exact formula does not
hold over the whole accepted range. -/
theorem C4_size_overflow_at_2pow53 :
    9007199254740993 ≤ MAX_INPUT_SIZE ∧
    f64ofNat 9007199254740993 = 9007199254740992 ∧
    nextPowTwo 9007199254740993 = 18014398509481984 ∧
    2 * nextPowTwo 9007199254740993 - 1 = 36028797018963967 ∧
    SegmentTree.get_segment_tree_size 9007199254740993 = 18014398509481983 ∧
    (18014398509481983 : Nat) ≠ 36028797018963967 :=
  ⟨by decide, by decide, by decide, by decide, by decide, by decide⟩

/-!  Claim C5. -/

/-- Claim C5: on every tree produced by `new` (so `leaf_len ≥ 1`),
`query(lo, hi)` returns a validation error exactly when `lo > hi`, or
`lo > leaf_len - 1`, or `hi > leaf_len - 1`, each with its own distinct
message and checked in that order; in every other case it returns `Ok`. -/
theorem C5_query_validation (s : List Int) (t : SegmentTree) (lo hi : Nat)
    (hnew : SegmentTree.new s = some (Except.ok t)) :
    SegmentTree.query t lo hi =
      if hi < lo then
        some (Except.error "Start index is greater than end index")
      else if t.leaf_len - 1 < lo then
        some (Except.error "Start index is out of bounds")
      else if t.leaf_len - 1 < hi then
        some (Except.error "End index is out of bounds")
      else some (Except.ok (wrap (rangeSum (fun k => s.getD k 0) lo hi))) :=
  query_char (new_good hnew).1 lo hi

/-- Claim C5 witness: the characterization instantiated at the rejected
call `query(5, 2)` on the tree of `[1, 2, 3, 4, 5, 6, 7, 8]`. -/
theorem C5_witness_lo_gt_hi :
    SegmentTree.query (newOk ex8) 5 2 =
      if 2 < 5 then
        some (Except.error "Start index is greater than end index")
      else if (newOk ex8).leaf_len - 1 < 5 then
        some (Except.error "Start index is out of bounds")
      else if (newOk ex8).leaf_len - 1 < 2 then
        some (Except.error "End index is out of bounds")
      else some (Except.ok (wrap (rangeSum (fun k => ex8.getD k 0) 5 2))) :=
  C5_query_validation ex8 (newOk ex8) 5 2 rfl

/-!  Claim C6. -/

/-- Claim C6: when `update(idx, v)` fails validation (`idx ≥ leaf_len`, or
`v` outside `[MIN_VALUE, MAX_VALUE]`), it returns an error together with
the *identical* tree value — every node, `leaf_len` and `leaf_indices`
unchanged; no partial mutation happens on failure. -/
theorem C6_update_error_no_mutation (s : List Int) (t : SegmentTree)
    (idx : Nat) (v : Int)
    (hnew : SegmentTree.new s = some (Except.ok t))
    (hbad : t.leaf_len ≤ idx ∨ MAX_VALUE < v ∨ v < MIN_VALUE) :
    ∃ msg, SegmentTree.update t idx v = some (t, Except.error msg) := by
  have hlen : 1 ≤ t.leaf_len := ((new_good hnew).1).1
  by_cases hidx : t.leaf_len ≤ idx
  · refine ⟨"Update index is out of bounds", update_error_eq ?_⟩
    unfold SegmentTree.validate_public_update
    rw [if_neg (by omega : ¬ t.leaf_len = 0), if_pos hidx]
  · have hv : MAX_VALUE < v ∨ v < MIN_VALUE := by tauto
    refine ⟨"New value is out of valid range", update_error_eq ?_⟩
    unfold SegmentTree.validate_public_update
    rw [if_neg (by omega : ¬ t.leaf_len = 0), if_neg hidx, if_pos hv]

/-- Claim C6 witness: the out-of-bounds call `update(8, 1)` on the tree of
`[1, 2, 3, 4, 5, 6, 7, 8]` returns an error with the unchanged tree. -/
theorem C6_witness_oob_index :
    ∃ msg, SegmentTree.update (newOk ex8) 8 1 =
      some (newOk ex8, Except.error msg) :=
  C6_update_error_no_mutation ex8 (newOk ex8) 8 1 rfl (Or.inl (by decide))

/-!  Claim C7. -/

/-- Claim C7: a successful `update(idx, v)` keeps `leaf_len`,
`leaf_indices` and the arena length; every arena slot off the ancestor
chain of the leaf slot `leaf_indices[idx]` is unchanged in all fields, and
no slot anywhere changes its `start`, `stop`, `left` or `right`. -/
theorem C7_update_frame_only_path (t : SegmentTree) (idx : Nat) (v : Int)
    (t2 : SegmentTree)
    (h : SegmentTree.update t idx v = some (t2, Except.ok ())) :
    t2.leaf_len = t.leaf_len ∧ t2.leaf_indices = t.leaf_indices ∧
    t2.nodes.length = t.nodes.length ∧
    (∀ j, j ∉ ancChain (t.leaf_indices.getD idx 0) →
      getN t2.nodes j = getN t.nodes j) ∧
    (∀ j, (getN t2.nodes j).start = (getN t.nodes j).start ∧
      (getN t2.nodes j).stop = (getN t.nodes j).stop ∧
      (getN t2.nodes j).left = (getN t.nodes j).left ∧
      (getN t2.nodes j).right = (getN t.nodes j).right) :=
  update_frame h

/-- Claim C7 witness: after `update(3, 10)` on the tree of
`[1, 2, 3, 4, 5, 6, 7, 8]`, arena slot `13` (off the updated leaf's
ancestor chain `[10, 4, 1, 0]`) is unchanged. -/
theorem C7_witness_untouched_slot :
    getN (updOk (newOk ex8) 3 10).nodes 13 = getN (newOk ex8).nodes 13 :=
  (C7_update_frame_only_path (newOk ex8) 3 10 (updOk (newOk ex8) 3 10)
    rfl).2.2.2.1 13 (by decide)

/-!  Claim C8. -/

/-- Claim C8 (corrected form): for every accepted input, construction
visits `2 * leaf_len - 1` distinct arena slots — each exactly once (the
visit list has no duplicates) and each within the arena — and every slot
off that list still holds the default reserve node: when `leaf_len` is not
a power of two this is fewer than the `2 * next_power_of_two(n) - 1` slots
the original claim asserts. -/
theorem C8_build_visits_2n_minus_1 (s : List Int) (t : SegmentTree)
    (hnew : SegmentTree.new s = some (Except.ok t)) :
    (buildVisited 0 0 (t.leaf_len - 1)).Nodup ∧
    (buildVisited 0 0 (t.leaf_len - 1)).length = 2 * t.leaf_len - 1 ∧
    (∀ j, j ∈ buildVisited 0 0 (t.leaf_len - 1) → j < t.nodes.length) ∧
    (∀ j, j ∉ buildVisited 0 0 (t.leaf_len - 1) →
      getN t.nodes j = dfltNode) := by
  obtain ⟨hG, hlen⟩ := new_good hnew
  obtain ⟨g1, g2, g3, g4, g5⟩ := hG
  refine ⟨buildVisited_nodup (t.leaf_len - 1) 0 0 (t.leaf_len - 1) rfl,
    ?_, ?_, g5⟩
  · rw [buildVisited_length (t.leaf_len - 1) 0 0 (t.leaf_len - 1) rfl
      (by omega)]
    omega
  · intro j hj
    obtain ⟨s2, e2, hT⟩ := mem_visited_TNL (t.leaf_len - 1) 0 0
      (t.leaf_len - 1) j rfl (by omega) hj
    exact (g3 j s2 e2 hT).1

/-- Claim C8 witness: construction from `[1, 2, 3, 4, 5, 6, 7, 8]` visits
`2 * 8 - 1 = 15` slots. -/
theorem C8_witness_ex8 :
    (buildVisited 0 0 ((newOk ex8).leaf_len - 1)).length =
      2 * (newOk ex8).leaf_len - 1 :=
  (C8_build_visits_2n_minus_1 ex8 (newOk ex8) rfl).2.1

/-- Claim C8 counterexample: for the accepted input `[1, 2, 3]` the arena
has `2 * next_power_of_two(3) - 1 = 7` slots but construction visits only
the `2 * 3 - 1 = 5` slots `[0, 1, 3, 4, 2]`; slot `5` is never written
and still holds the reserve default after `new`. -/
theorem C8_cex_n3 :
    SegmentTree.new [1, 2, 3] = some (Except.ok (newOk [1, 2, 3])) ∧
    (newOk [1, 2, 3]).nodes.length = 7 ∧
    nextPowTwo 3 = 4 ∧ 2 * nextPowTwo 3 - 1 = 7 ∧
    buildVisited 0 0 2 = [0, 1, 3, 4, 2] ∧
    (buildVisited 0 0 2).length = 5 ∧ (5 : Nat) ≠ 7 ∧
    5 ∉ buildVisited 0 0 2 ∧
    getN (newOk [1, 2, 3]).nodes 5 = dfltNode :=
  ⟨rfl, rfl, rfl, rfl, rfl, rfl, by decide, by decide, rfl⟩

/-!  Claim C9. -/

/-- Claim C9 (corrected form): the two copies of the structure in
`src/lib.rs` and `src/main.rs` do not diverge at all — every duplicated
function of the `src/main.rs` copy is extensionally equal to the library
copy's; in particular neither copy restricts the input length to even
values and neither uses `start ≥ leaf_len - 1` as the query lower-bound
check. -/
theorem C9_copies_agree :
    MainSrc.validate_input = SegmentTree.validate_input ∧
    MainSrc.get_segment_tree_size = SegmentTree.get_segment_tree_size ∧
    MainSrc.new = SegmentTree.new ∧
    MainSrc.validate_public_query = SegmentTree.validate_public_query ∧
    MainSrc.query = SegmentTree.query ∧
    MainSrc.validate_public_update = SegmentTree.validate_public_update ∧
    MainSrc.update = SegmentTree.update :=
  ⟨mainVI_eq, mainSize_eq, mainNew_eq, mainVQ_eq, mainQuery_eq, mainVU_eq,
    mainUpdate_eq⟩

/-- Claim C9 counterexample: both copies accept the odd-length sequence
`[1, 2, 3]` (no copy requires an even length), and on the 8-leaf tree both
copies accept the query lower bounds `leaf_len - 2 = 6` and
`leaf_len - 1 = 7` (no copy rejects the second-to-last start index). -/
theorem C9_cex_copies_identical :
    MainSrc.validate_input [1, 2, 3] = Except.ok () ∧
    SegmentTree.validate_input [1, 2, 3] = Except.ok () ∧
    MainSrc.new [1, 2, 3] = some (Except.ok (newOk [1, 2, 3])) ∧
    MainSrc.validate_public_query (newOk ex8) 6 7 = Except.ok () ∧
    MainSrc.validate_public_query (newOk ex8) 7 7 = Except.ok () ∧
    SegmentTree.validate_public_query (newOk ex8) 6 7 = Except.ok () ∧
    SegmentTree.validate_public_query (newOk ex8) 7 7 = Except.ok () :=
  ⟨rfl, rfl, rfl, rfl, rfl, rfl, rfl⟩

/-!  Claim C10. -/

/-- Claim C10: on every reachable tree, `query` and `update` never hit an
internal panic path (modelled as `none`: out-of-bounds arena indexing,
`unwrap` of an absent child, or fuel exhaustion), and the
"Segment tree is empty" validation branches are unreachable — no error
they return ever carries that message, because `leaf_len ≥ 1` holds for
every constructed tree. -/
theorem C10_no_panic (t : SegmentTree) (hR : Reach t) :
    (∀ lo hi, SegmentTree.query t lo hi ≠ none) ∧
    (∀ lo hi r, SegmentTree.query t lo hi = some (Except.error r) →
      r ≠ "Segment tree is empty") ∧
    (∀ idx v, SegmentTree.update t idx v ≠ none) ∧
    (∀ idx v t2 r,
      SegmentTree.update t idx v = some (t2, Except.error r) →
      r ≠ "Segment tree is empty") := by
  obtain ⟨f, hG⟩ := Reach_good hR
  have hlen : 1 ≤ t.leaf_len := hG.1
  refine ⟨?_, ?_, ?_, ?_⟩
  · intro lo hi
    rw [query_char hG lo hi]
    by_cases h1 : hi < lo
    · rw [if_pos h1]
      exact Option.some_ne_none _
    · rw [if_neg h1]
      by_cases h2 : t.leaf_len - 1 < lo
      · rw [if_pos h2]
        exact Option.some_ne_none _
      · rw [if_neg h2]
        by_cases h3 : t.leaf_len - 1 < hi
        · rw [if_pos h3]
          exact Option.some_ne_none _
        · rw [if_neg h3]
          exact Option.some_ne_none _
  · intro lo hi r hq
    rw [query_char hG lo hi] at hq
    by_cases h1 : hi < lo
    · rw [if_pos h1] at hq
      simp only [Option.some.injEq, Except.error.injEq] at hq
      subst hq
      decide
    · rw [if_neg h1] at hq
      by_cases h2 : t.leaf_len - 1 < lo
      · rw [if_pos h2] at hq
        simp only [Option.some.injEq, Except.error.injEq] at hq
        subst hq
        decide
      · rw [if_neg h2] at hq
        by_cases h3 : t.leaf_len - 1 < hi
        · rw [if_pos h3] at hq
          simp only [Option.some.injEq, Except.error.injEq] at hq
          subst hq
          decide
        · rw [if_neg h3] at hq
          simp at hq
  · intro idx v
    cases hv : SegmentTree.validate_public_update t idx v with
    | error e =>
      rw [update_error_eq hv]
      exact Option.some_ne_none _
    | ok u =>
      cases u
      obtain ⟨_, hidx, hv1, hv2⟩ := validate_update_facts hv
      obtain ⟨t3, heq, _⟩ := update_good hG hidx hv1 hv2
      rw [heq]
      exact Option.some_ne_none _
  · intro idx v t2 r hu
    cases hv : SegmentTree.validate_public_update t idx v with
    | error e =>
      rw [update_error_eq hv] at hu
      simp only [Option.some.injEq, Prod.mk.injEq, Except.error.injEq] at hu
      rw [← hu.2]
      exact validate_update_empty_msg hlen hv
    | ok u =>
      cases u
      obtain ⟨_, hidx, hv1, hv2⟩ := validate_update_facts hv
      obtain ⟨t3, heq, _⟩ := update_good hG hidx hv1 hv2
      rw [heq] at hu
      simp at hu

/-- Claim C10 witness: `query(0, 7)` on the freshly built tree of
`[1, 2, 3, 4, 5, 6, 7, 8]` does not hit a panic path. -/
theorem C10_witness_query_total :
    SegmentTree.query (newOk ex8) 0 7 ≠ none :=
  (C10_no_panic (newOk ex8)
    (Reach.base (show SegmentTree.new ex8 = some (Except.ok (newOk ex8))
      from rfl))).1 0 7
